import Mathlib

/-!
# Verification of the gitlab-commit-tree core algorithms

Shallow embedding of the diff-to-tree transformation and unified-diff
rendering pipeline of the `gitlab-commit-tree` repository:

* `parseFileStats`           (src/src/utils/helpers.js, src/commit-tree-utils.js)
* `buildFileTree`, `propagateStats`, `collapseSingleChildFolders`
                             (src/commit-tree-utils.js)
* `renderDiff`, `renderNormalLine`, `renderModifiedLine`,
  `extractDiffFromGitLabHTML` (src/src/components/preview/diff-renderer.js)
* `highlightCode`, `fileLanguageMapping`
                             (src/src/core/highlight.js, src/src/config/constants.js)

JavaScript strings are modelled as Lean `String`, with string primitives
(`split`, `startsWith`, `substring(1)`, `trim`, `toLowerCase`) given explicit
structurally-recursive definitions over `String.data` so that every
definition evaluates inside the kernel.  JavaScript objects used as string
maps are modelled as insertion-ordered association lists.  Code that can
throw a `TypeError` (accessing `.children` of a file node) is modelled in
the `Except Unit` monad.  External collaborators (highlight.js, the `diff`
word-differ, the DOM) are passed in as explicit function parameters, per the
spec's collaborator interfaces.
-/

namespace CommitTree

/-- JS `String.prototype.startsWith`, modelled on character lists. -/
def jsStartsWith (s p : String) : Bool := p.data.isPrefixOf s.data

/-- JS `String.prototype.split(sep)` for a single-character separator,
modelled with `List.splitOn` on character data. -/
def jsSplit (s : String) (sep : Char) : List String :=
  (s.data.splitOn sep).map (fun l => ⟨l⟩)

/-- JS `String.prototype.substring(1)`. -/
def jsSubstr1 (s : String) : String := ⟨s.data.drop 1⟩

/-- JS `String.prototype.trim`. -/
def jsTrim (s : String) : String :=
  ⟨((s.data.dropWhile Char.isWhitespace).reverse.dropWhile Char.isWhitespace).reverse⟩

/-- JS `String.prototype.toLowerCase` (ASCII, which is all the code relies on). -/
def jsToLower (s : String) : String := ⟨s.data.map Char.toLower⟩

/-- Addition/deletion counters, as in `{additions, deletions}` objects. -/
structure Stats where
  additions : Nat
  deletions : Nat
deriving DecidableEq, Repr

/-- Pointwise addition of two stats records. -/
def Stats.add (a b : Stats) : Stats := ⟨a.additions + b.additions, a.deletions + b.deletions⟩

/-- A processed file record, as produced by `processFilesFromApiResponse`
(src/commit-tree-utils.js): `{path, old_path, diff_index, status, diff_content}`.
`diff_content` is `none` for a missing/null diff. -/
structure FileChange where
  path : String
  old_path : String
  diff_index : Nat
  status : String
  diff_content : Option String
deriving Repr

/-- The tree node union built by `buildFileTree`: folders carry an
insertion-ordered child map (JS object), files carry the file metadata. -/
inductive TreeNode where
  | file (name path old_path : String) (diff_index : Nat) (status : String)
         (diff_content : Option String) (stats : Stats)
  | folder (name : String) (children : List (String × TreeNode))
           (status : Option String) (stats : Stats)
deriving Repr

mutual
/-- Total node count of a tree (used as recursion fuel for the collapse pass). -/
def nodeCount : TreeNode → Nat
  | .file .. => 1
  | .folder _ ch _ _ => 1 + nodeCountL ch

/-- Node count of a child list. -/
def nodeCountL : List (String × TreeNode) → Nat
  | [] => 0
  | (_, c) :: tl => nodeCount c + nodeCountL tl
end
/-- Name of a node (JS `node.name`). -/
def TreeNode.name : TreeNode → String
  | .file n .. => n
  | .folder n _ _ _ => n

/-- JS `node.type === 'folder'`. -/
def TreeNode.isFolder : TreeNode → Bool
  | .file .. => false
  | .folder _ _ _ _ => true

/-- The `stats` field of a node. -/
def TreeNode.nodeStats : TreeNode → Stats
  | .file _ _ _ _ _ _ s => s
  | .folder _ _ _ s => s

/-! ### JS object maps as insertion-ordered association lists -/

/-- Lookup in a JS-object child map: `obj[key]`. -/
def lookupE : List (String × TreeNode) → String → Option TreeNode
  | [], _ => none
  | (k, v) :: tl, key => if k = key then some v else lookupE tl key

/-- Assignment `obj[key] = v`: replaces the binding in place if the key is
present, otherwise appends it (JS insertion order for string keys). -/
def setE : List (String × TreeNode) → String → TreeNode → List (String × TreeNode)
  | [], key, v => [(key, v)]
  | (k, w) :: tl, key, v => if k = key then (k, v) :: tl else (k, w) :: setE tl key v

/-- `delete obj[key]`: removes the binding of `key` (the first, and in our
trees only, occurrence). -/
def eraseE : List (String × TreeNode) → String → List (String × TreeNode)
  | [], _ => []
  | (k, w) :: tl, key => if k = key then tl else (k, w) :: eraseE tl key

/-! ### StatsParser -/

/-- `line.startsWith('-') && !line.startsWith('---')`: the removed-line
classifier shared (textually) by `parseFileStats` and `renderDiff`. -/
def isRemLine (l : String) : Bool := jsStartsWith l "-" && !jsStartsWith l "---"

/-- `line.startsWith('+') && !line.startsWith('+++')`: the added-line
classifier shared (textually) by `parseFileStats` and `renderDiff`. -/
def isAddLine (l : String) : Bool := jsStartsWith l "+" && !jsStartsWith l "+++"

/-- `parseFileStats(diffContent)` from src/src/utils/helpers.js (the identical
private copy in src/commit-tree-utils.js is named `parseFileStatsFromDiff`):
a falsy argument (null or the empty string) yields zero counts; otherwise the
text is split on `'\n'` and each line starting with `'+'` but not `'+++'`
counts as an addition, else each line starting with `'-'` but not `'---'`
counts as a deletion. -/
def parseFileStats : Option String → Stats
  | none => ⟨0, 0⟩
  | some s =>
    if s = "" then ⟨0, 0⟩
    else
      (jsSplit s '\n').foldl
        (fun acc line =>
          if isAddLine line then ⟨acc.additions + 1, acc.deletions⟩
          else if isRemLine line then ⟨acc.additions, acc.deletions + 1⟩
          else acc)
        ⟨0, 0⟩

/-! ### TreeBuilder -/

/-- The freshly created file node for `file` placed under key `part`
(`buildFileTree`, the `isFile` branch). -/
def mkFileNode (part : String) (f : FileChange) : TreeNode :=
  .file part f.path f.old_path f.diff_index f.status f.diff_content
    (parseFileStats f.diff_content)

/-- The freshly created intermediate folder node for segment `part`. -/
def mkFolderNode (part : String) : TreeNode :=
  .folder part [] none ⟨0, 0⟩

/-- JS truthiness of a node's `status` field (`!currentNode.children[part].status`):
falsy iff the status is absent (`null`) or the empty string. -/
def statusFalsy : TreeNode → Bool
  | .file _ _ _ _ st _ _ => st = ""
  | .folder _ _ st _ => st = none || st = some ""

/-- Overwrite a node's `status` field (`currentNode.children[part].status = file.status`). -/
def withStatus (v : String) : TreeNode → TreeNode
  | .file n p op di _ dc s => .file n p op di v dc s
  | .folder n ch _ s => .folder n ch (some v) s

/-- `if (!currentNode.children[part]) currentNode.children[part] = {…folder…}` -/
def ensureChild (ch : List (String × TreeNode)) (part : String) : List (String × TreeNode) :=
  match lookupE ch part with
  | some _ => ch
  | none => ch ++ [(part, mkFolderNode part)]

/-- The folder-status propagation step of `buildFileTree`:
`if (file.status && (!children[part].status || file.status === 'modified'))
children[part].status = file.status`. -/
def updateChildStatus (ch : List (String × TreeNode)) (part : String) (fstatus : String) :
    List (String × TreeNode) :=
  match lookupE ch part with
  | some c =>
    if fstatus ≠ "" && (statusFalsy c || fstatus = "modified") then
      setE ch part (withStatus fstatus c)
    else ch
  | none => ch

/-- The `parts.forEach` walk of `buildFileTree` for one file: creates
intermediate folders, updates their statuses, and places the file node at the
final segment.  Accessing `.children` of a file node (a JS `TypeError`)
is `Except.error ()`. -/
def insertWalk : TreeNode → List String → FileChange → Except Unit TreeNode
  | node, [], _ => .ok node
  | node, [part], f =>
    match node with
    | .folder n ch st s => .ok (.folder n (setE ch part (mkFileNode part f)) st s)
    | .file .. => .error ()
  | node, part :: rest, f =>
    match node with
    | .folder n ch st s =>
      let ch1 := ensureChild ch part
      let ch2 := updateChildStatus ch1 part f.status
      match lookupE ch2 part with
      | some c => do
        let sub ← insertWalk c rest f
        pure (.folder n (setE ch2 part sub) st s)
      | none => .error ()
    | .file .. => .error ()

/-- Add `stats` to a node's own `stats` field
(`currentNode.stats.additions += stats.additions; …deletions += …`). -/
def addStats (stats : Stats) : TreeNode → TreeNode
  | .file n p op di st dc s => .file n p op di st dc (s.add stats)
  | .folder n ch st s => .folder n ch st (s.add stats)

/-- The `for (i = 0; i < parts.length - 1; i++)` loop of `propagateStats`:
steps into `children[part]` when present (adding `stats` there) and otherwise
keeps scanning the remaining parts from the same node, exactly as the JS loop
does.  Reading `.children` of a file node is a `TypeError`. -/
def propagateWalk : TreeNode → List String → Stats → Except Unit TreeNode
  | node, [], _ => .ok node
  | node, part :: rest, stats =>
    match node with
    | .folder n ch st s =>
      match lookupE ch part with
      | none => propagateWalk (.folder n ch st s) rest stats
      | some c => do
        let sub ← propagateWalk (addStats stats c) rest stats
        pure (.folder n (setE ch part sub) st s)
    | .file .. => .error ()

/-- `propagateStats(root, filePath, stats)` from src/commit-tree-utils.js:
adds `stats` to the root and to every existing ancestor folder along
`filePath` (all path segments except the last). -/
def propagateStats (root : TreeNode) (filePath : String) (stats : Stats) :
    Except Unit TreeNode :=
  propagateWalk (addStats stats root) ((jsSplit filePath '/').dropLast) stats

/-- The body of the `files.forEach` loop in `buildFileTree`: insert the
file's node (creating folders and updating statuses on the way), then
propagate its stats. -/
def addFile (root : TreeNode) (f : FileChange) : Except Unit TreeNode := do
  let r1 ← insertWalk root (jsSplit f.path '/') f
  propagateStats r1 f.path (parseFileStats f.diff_content)

/-- The combined effect of the `files.forEach` body on the subtree reached
after consuming the leading path segments: insert the file node along
`parts`, then add its stats to this node and walk `parts.dropLast` adding
stats (this is `addFile` itself when `parts` is the full segment list, and
is the form in which the per-file induction proceeds). -/
def placeAt (t : TreeNode) (parts : List String) (f : FileChange) : Except Unit TreeNode := do
  let t1 ← insertWalk t parts f
  propagateWalk (addStats (parseFileStats f.diff_content) t1) parts.dropLast
    (parseFileStats f.diff_content)

/-- Given the already-collapsed single child `c'` of a folder, the merge test
of `collapseSingleChildFolders`: if `c'` has exactly one child and that child
is itself a folder, return the grandchild renamed `"parent/child"`. -/
def mergeCandidate : TreeNode → Option TreeNode
  | .folder cn [(_, .folder gn gch gst gs)] _ _ =>
    some (.folder (cn ++ "/" ++ gn) gch gst gs)
  | _ => none

/-- One pass of the `for (const key of childKeys)` loop of
`collapseSingleChildFolders`, with `collapse` the recursive collapse at the
remaining recursion budget and the current child list threaded through.
On a merge the child entry is deleted and the renamed grandchild appended
(JS `delete` + assignment), and the scan restarts on the whole node. -/
def collapseGo (collapse : TreeNode → TreeNode) (n : String) (st : Option String)
    (s : Stats) : List String → List (String × TreeNode) → TreeNode
  | [], ch => .folder n ch st s
  | key :: keys, ch =>
    match lookupE ch key with
    | none => collapseGo collapse n st s keys ch
    | some c =>
      match c with
      | .file .. => collapseGo collapse n st s keys ch
      | .folder .. =>
        let c' := collapse c
        let ch1 := setE ch key c'
        match mergeCandidate c' with
        | some g =>
          collapse (.folder n (eraseE ch1 key ++ [(g.name, g)]) st s)
        | none => collapseGo collapse n st s keys ch1

/-- `collapseSingleChildFolders(node)` with an explicit recursion budget
`fuel` (the JS recursion terminates because every merge removes one node;
`fuel` bounds the recursion depth, and all general theorems below are proved
for every fuel value). -/
def collapseFuel : Nat → TreeNode → TreeNode
  | 0, t => t
  | fuel + 1, t =>
    match t with
    | .file .. => t
    | .folder n ch st s => collapseGo (collapseFuel fuel) n st s (ch.map Prod.fst) ch

/-- `collapseSingleChildFolders(root)` as invoked by `buildFileTree`: the
node count of the tree bounds the recursion depth (each recursive call
either descends into a strict subtree or restarts after a merge removed a
node). -/
def collapseSingleChildFolders (t : TreeNode) : TreeNode :=
  collapseFuel (nodeCount t) t

/-- `buildFileTree(files)` from src/commit-tree-utils.js: fold the files into
the root folder named `"/"`, then run the folder-collapse pass.  A JS
`TypeError` thrown by the insertion walk aborts the whole build. -/
def buildFileTree (files : List FileChange) : Except Unit TreeNode := do
  let root ← files.foldlM addFile (.folder "/" [] none ⟨0, 0⟩)
  pure (collapseSingleChildFolders root)

/-! ### Observation functions for the tree invariants -/

mutual
/-- Sum of the `stats` of all descendant *file* nodes of a node
(the node itself, if a file). -/
def descStats : TreeNode → Stats
  | .file _ _ _ _ _ _ s => s
  | .folder _ ch _ _ => descStatsL ch

/-- Sum of descendant file stats over a child list. -/
def descStatsL : List (String × TreeNode) → Stats
  | [] => ⟨0, 0⟩
  | (_, c) :: tl => (descStats c).add (descStatsL tl)
end

mutual
/-- The spec's `buildFileTree` invariant, as a decidable check: every folder
node's `stats` equals the sum of the `stats` of its descendant file nodes. -/
def statsOKb : TreeNode → Bool
  | .file .. => true
  | .folder _ ch _ s => decide (s = descStatsL ch) && statsOKbL ch

/-- `statsOKb` over a child list. -/
def statsOKbL : List (String × TreeNode) → Bool
  | [] => true
  | (_, c) :: tl => statsOKb c && statsOKbL tl
end

mutual
/-- Whether a subtree contains at least one file node. -/
def hasFileB : TreeNode → Bool
  | .file .. => true
  | .folder _ ch _ _ => hasFileBL ch

/-- `hasFileB` over a child list. -/
def hasFileBL : List (String × TreeNode) → Bool
  | [] => false
  | (_, c) :: tl => hasFileB c || hasFileBL tl
end

mutual
/-- Every *child* subtree (recursively) contains at least one file node;
this holds for every tree `buildFileTree` returns because intermediate
folders are only ever created on the path of a successfully inserted file. -/
def childrenHaveFilesB : TreeNode → Bool
  | .file .. => true
  | .folder _ ch _ _ => childrenHaveFilesBL ch

/-- `childrenHaveFilesB` over a child list. -/
def childrenHaveFilesBL : List (String × TreeNode) → Bool
  | [] => true
  | (_, c) :: tl => (hasFileB c && childrenHaveFilesB c) && childrenHaveFilesBL tl
end

/-- The combined well-formedness used in the construction invariant. -/
def goodB (t : TreeNode) : Bool := statsOKb t && childrenHaveFilesB t

mutual
/-- The key paths (lists of child-map keys from this node down) of all
descendant file nodes. -/
def filePaths : TreeNode → List (List String)
  | .file .. => [[]]
  | .folder _ ch _ _ => filePathsL ch

/-- `filePaths` over a child list: each child contributes its file paths
prefixed with its key. -/
def filePathsL : List (String × TreeNode) → List (List String)
  | [] => []
  | (k, c) :: tl => (filePaths c).map (k :: ·) ++ filePathsL tl
end

/-! ### SyntaxHighlighter collaborator and `highlightCode` -/

/-- HTML escaping as performed by `escapeHtml` (a text node serialized via
`innerHTML` escapes `&`, `<`, `>`). -/
def escapeHtml (s : String) : String :=
  ⟨(s.data.map (fun c =>
      if c = '&' then "&amp;".data
      else if c = '<' then "&lt;".data
      else if c = '>' then "&gt;".data
      else [c])).flatten⟩

/-- The highlight.js collaborator interface: `getLanguage` says whether a
grammar is registered; `highlight` returns the highlighted HTML or `none`
when it throws. -/
structure Hljs where
  getLanguage : String → Bool
  highlight : String → String → Option String

/-- `fileLanguageMapping` from src/src/config/constants.js: the fixed
filename-to-language lookup table. -/
def fileLanguageMapping : String → Option String
  | ".gitignore" => some "ini"
  | ".gitattributes" => some "ini"
  | ".gitmodules" => some "ini"
  | ".dockerignore" => some "ini"
  | ".editorconfig" => some "ini"
  | ".npmrc" => some "ini"
  | ".yarnrc" => some "ini"
  | ".env" => some "ini"
  | ".env.example" => some "ini"
  | ".env.local" => some "ini"
  | ".env.production" => some "ini"
  | ".env.development" => some "ini"
  | "package-lock.json" => some "json"
  | "composer.lock" => some "json"
  | "yarn.lock" => some "yaml"
  | "Gemfile.lock" => some "properties"
  | "pnpm-lock.yaml" => some "yaml"
  | "Pipfile.lock" => some "json"
  | "poetry.lock" => some "toml"
  | "Cargo.lock" => some "toml"
  | ".eslintrc" => some "json"
  | ".prettierrc" => some "json"
  | ".babelrc" => some "json"
  | ".stylelintrc" => some "json"
  | "tsconfig.json" => some "json"
  | "jsconfig.json" => some "json"
  | ".mailmap" => some "ini"
  | ".git-blame-ignore-revs" => some "plaintext"
  | "Makefile" => some "makefile"
  | "Dockerfile" => some "dockerfile"
  | "docker-compose.yml" => some "yaml"
  | "docker-compose.yaml" => some "yaml"
  | "phpstan.dist.neon" => some "yaml"
  | _ => none

/-- `highlightCode(content, fileExt, filename)` from src/src/core/highlight.js:
blank content is escaped; otherwise the extension is tried as the language,
falling back to the `fileLanguageMapping` entry for the full filename, and to
escaped plain text when neither names a registered grammar; a highlighter
exception also falls back to escaped plain text. -/
def highlightCode (h : Hljs) (content fileExt filename : String) : String :=
  if jsTrim content = "" then escapeHtml content
  else
    let language := fileExt
    if !h.getLanguage language then
      match fileLanguageMapping filename with
      | none => escapeHtml content
      | some l =>
        if !h.getLanguage l then escapeHtml content
        else match h.highlight content l with
          | some r => r
          | none => escapeHtml content
    else match h.highlight content language with
      | some r => r
      | none => escapeHtml content

/-! ### UnifiedDiffParser / Renderer (`renderDiff`) -/

/-- A word-diff part as returned by the external `Diff.diffWords`
collaborator: a span value with `added`/`removed` flags. -/
structure WordPart where
  value : String
  added : Bool
  removed : Bool
deriving DecidableEq, Repr

/-- The word-diff collaborator `Diff.diffWords`. -/
def WordDiff := String → String → List WordPart

/-- A span inside the content cell of a rendered diff line. -/
inductive Span where
  | wordRemoved (s : String)
  | wordAdded (s : String)
  | plainHl (html : String)
deriving DecidableEq, Repr

/-- A row of the rendered diff table: a hunk separator, a word-diffed
paired-modification line (from `renderModifiedLine`), or a plain line
(from `renderNormalLine`, carrying its single highlighted content cell). -/
inductive Row where
  | separator
  | modLine (kind oldNum newNum : String) (spans : List Span)
  | normLine (kind oldNum newNum : String) (content : String)
deriving DecidableEq, Repr

/-- The result of `renderDiff`: the fixed "Aucune différence disponible"
empty-diff placeholder, or the table of rendered rows. -/
inductive RenderResult where
  | empty
  | table (rows : List Row)
deriving DecidableEq, Repr

/-- Parse a run of decimal digits (at least one) at the head of the list. -/
def parseDigits : List Char → Option (Nat × List Char)
  | c :: rest =>
    if c.isDigit then
      let rec go (acc : Nat) : List Char → Nat × List Char
        | d :: tl => if d.isDigit then go (acc * 10 + (d.toNat - '0'.toNat)) tl else (acc, d :: tl)
        | [] => (acc, [])
      some (go (c.toNat - '0'.toNat) rest)
    else none
  | [] => none

/-- Drop a literal prefix, or fail. -/
def dropLit : List Char → List Char → Option (List Char)
  | [], cs => some cs
  | p :: ps, c :: cs => if c = p then dropLit ps cs else none
  | _ :: _, [] => none

/-- Try to match the hunk-header regex
`@@ -(\d+)(?:,\d+)? \+(\d+)(?:,\d+)? @@` at this exact position. -/
def tryHunkAt (cs : List Char) : Option (Nat × Nat) := do
  let cs ← dropLit "@@ -".data cs
  let (oldStart, cs) ← parseDigits cs
  let cs := (do
      let cs' ← dropLit ",".data cs
      let (_, cs') ← parseDigits cs'
      pure cs').getD cs
  let cs ← dropLit " +".data cs
  let (newStart, cs) ← parseDigits cs
  let cs := (do
      let cs' ← dropLit ",".data cs
      let (_, cs') ← parseDigits cs'
      pure cs').getD cs
  let _ ← dropLit " @@".data cs
  pure (oldStart, newStart)

/-- `line.match(/@@ -(\d+)(?:,\d+)? \+(\d+)(?:,\d+)? @@/)`: leftmost match
anywhere in the line, returning the two captured start numbers. -/
def findHunk : List Char → Option (Nat × Nat)
  | [] => tryHunkAt []
  | c :: rest =>
    match tryHunkAt (c :: rest) with
    | some r => some r
    | none => findHunk rest

/-- `renderNormalLine` from src/src/components/preview/diff-renderer.js:
classifies a line by its prefix and renders the line-number cells and the
highlighted content (an empty content renders a single space); lines with no
recognized prefix produce no row. -/
def renderNormalLine (h : Hljs) (fileExt filename line : String)
    (oldLineNum newLineNum : Nat) : Option Row :=
  let render (kind oldNum newNum lineContent : String) : Row :=
    .normLine kind oldNum newNum
      (if lineContent = "" then " " else highlightCode h lineContent fileExt filename)
  if jsStartsWith line "+" then
    some (render "added" "" (Nat.repr newLineNum) (jsSubstr1 line))
  else if jsStartsWith line "-" then
    some (render "removed" (Nat.repr oldLineNum) "" (jsSubstr1 line))
  else if jsStartsWith line " " then
    some (render "context" (Nat.repr oldLineNum) (Nat.repr newLineNum) (jsSubstr1 line))
  else none

/-- The span list built by `renderModifiedLine`'s `changes.forEach`: on the
removed side only removed word-parts and unchanged parts are kept, on the
added side only added word-parts and unchanged parts. -/
def modSpans (h : Hljs) (fileExt filename : String) (isRemoved : Bool)
    (changes : List WordPart) : List Span :=
  changes.foldr
    (fun part acc =>
      if isRemoved && part.removed then .wordRemoved part.value :: acc
      else if !isRemoved && part.added then .wordAdded part.value :: acc
      else if !part.added && !part.removed then
        .plainHl (highlightCode h part.value fileExt filename) :: acc
      else acc) []

/-- A removed-run/added-run of equal length rendered as a paired
modification: all removed lines first (word diff of `removed[k]` vs
`added[k]`), then all added lines (same word diff). -/
def pairedRows (h : Hljs) (w : WordDiff) (fileExt filename : String)
    (removed added : List String) (oldLineNum newLineNum : Nat) : List Row :=
  ((removed.zip added).enum.map (fun (k, r, a) =>
      Row.modLine "removed" (Nat.repr (oldLineNum + k)) ""
        (modSpans h fileExt filename true (w (jsSubstr1 r) (jsSubstr1 a))))) ++
  ((removed.zip added).enum.map (fun (k, r, a) =>
      Row.modLine "added" "" (Nat.repr (newLineNum + k))
        (modSpans h fileExt filename false (w (jsSubstr1 r) (jsSubstr1 a)))))

/-- The main `for (let i = 0; …)` loop of `renderDiff`, with the recursion
budget `fuel` decremented once per iteration (one iteration consumes at least
one line, so `lines.length` fuel is exact).  State: current lines, the
`oldLineNum`/`newLineNum` counters and the hunk `sectionCount`. -/
def renderLoop (h : Hljs) (w : WordDiff) (fileExt filename : String) :
    Nat → List String → Nat → Nat → Nat → List Row
  | 0, _, _, _, _ => []
  | _ + 1, [], _, _, _ => []
  | fuel + 1, line :: rest, oldLineNum, newLineNum, sectionCount =>
    if jsStartsWith line "@@" then
      let (oldLineNum, newLineNum) :=
        match findHunk line.data with
        | some (o, n) => (o, n)
        | none => (oldLineNum, newLineNum)
      let sep : List Row := if sectionCount + 1 > 1 then [.separator] else []
      sep ++ renderLoop h w fileExt filename fuel rest oldLineNum newLineNum (sectionCount + 1)
    else if jsStartsWith line "+++" || jsStartsWith line "---" || jsStartsWith line "\\" then
      renderLoop h w fileExt filename fuel rest oldLineNum newLineNum sectionCount
    else if jsStartsWith line "-" then
      let removed := (line :: rest).takeWhile isRemLine
      let rest1 := (line :: rest).dropWhile isRemLine
      let added := rest1.takeWhile isAddLine
      let rest2 := rest1.dropWhile isAddLine
      if removed.length = added.length then
        pairedRows h w fileExt filename removed added oldLineNum newLineNum ++
          renderLoop h w fileExt filename fuel rest2 (oldLineNum + removed.length)
            (newLineNum + added.length) sectionCount
      else
        (renderNormalLine h fileExt filename line oldLineNum newLineNum).toList ++
          renderLoop h w fileExt filename fuel rest (oldLineNum + 1) newLineNum sectionCount
    else
      (renderNormalLine h fileExt filename line oldLineNum newLineNum).toList ++
        (if jsStartsWith line "+" then
          renderLoop h w fileExt filename fuel rest oldLineNum (newLineNum + 1) sectionCount
        else if jsStartsWith line " " then
          renderLoop h w fileExt filename fuel rest (oldLineNum + 1) (newLineNum + 1) sectionCount
        else
          renderLoop h w fileExt filename fuel rest oldLineNum newLineNum sectionCount)

/-- `renderDiff(container, diffContent, filePath)` from
src/src/components/preview/diff-renderer.js, as the rendered structure it
places into the container: a falsy diff yields the fixed empty-diff
placeholder, otherwise the table of rows produced by the line loop. -/
def renderDiff (h : Hljs) (w : WordDiff) (diffContent : Option String)
    (filePath : String) : RenderResult :=
  match diffContent with
  | none => .empty
  | some d =>
    if d = "" then .empty
    else
      let filename := ((jsSplit filePath '/').getLast?).getD ""
      let fileExt := jsToLower (((jsSplit filename '.').getLast?).getD "")
      let lines := jsSplit d '\n'
      .table (renderLoop h w fileExt filename lines.length lines 0 0 0)

/-! ### HtmlDiffExtractor (`extractDiffFromGitLabHTML`) -/

/-- One `.line_holder` element of the GitLab HTML diff fragment, as the DOM
collaborator exposes it to the extraction loop: the text content of its
`.line_content` cell, the `data-linenumber` attributes of its `.old_line`
and `.new_line` cells (absent cell or attribute gives `none`), and the
`old`/`new` markers of its class list. -/
structure LineHolder where
  text : String
  oldAttr : Option String
  newAttr : Option String
  classOld : Bool
  classNew : Bool
deriving Repr

/-- JS `parseInt(str, 10)`: leading whitespace skipped, optional sign, then
at least one leading digit; `NaN` (here `none`) otherwise. -/
def jsParseInt (s : String) : Option Int :=
  let cs := s.data.dropWhile Char.isWhitespace
  match cs with
  | '-' :: tl => (parseDigits tl).map (fun (n, _) => -(n : Int))
  | '+' :: tl => (parseDigits tl).map (fun (n, _) => (n : Int))
  | _ => (parseDigits cs).map (fun (n, _) => (n : Int))

/-- The `getLineNum` helper of `extractDiffFromGitLabHTML`: missing or blank
attribute gives `null`, otherwise `parseInt(num, 10)` with `NaN` mapped to
`null`. -/
def getLineNum : Option String → Option Int
  | none => none
  | some a => if jsTrim a = "" then none else jsParseInt a

/-- A hunk being reconstructed: `{oldStart, newStart, oldCount, newCount, lines}`. -/
structure Section' where
  oldStart : Int
  newStart : Int
  oldCount : Nat
  newCount : Nat
  lines : List String
deriving Repr

/-- JS `oldNum || 1`: `null` and `0` are falsy. -/
def numOr1 : Option Int → Int
  | none => 1
  | some v => if v = 0 then 1 else v

/-- State of the extraction fold: finished sections, the open section, and
the previous line's old/new numbers. -/
structure ExtractState where
  sections : List Section'
  currentSection : Option Section'
  prevOldNum : Option Int
  prevNewNum : Option Int

/-- The `lineHolders.forEach` body of `extractDiffFromGitLabHTML`. -/
def extractStep (st : ExtractState) (holder : LineHolder) : ExtractState :=
  let text : String := ⟨holder.text.data.filter (· ≠ '\n')⟩
  if jsStartsWith text "\\ No newline at end of file" || jsStartsWith text "@@" then st
  else
    let oldNum := getLineNum holder.oldAttr
    let newNum := getLineNum holder.newAttr
    let type : String := if holder.classOld then "removed"
      else if holder.classNew then "added" else "context"
    let hasJump :=
      (match st.prevOldNum, oldNum with
        | some p, some o => o > p + 1
        | _, _ => false) ||
      (match st.prevNewNum, newNum with
        | some p, some n => n > p + 1
        | _, _ => false)
    let (sections, cur) :=
      if hasJump || st.currentSection.isNone then
        (match st.currentSection with
          | some s => st.sections ++ [s]
          | none => st.sections,
         ({ oldStart := numOr1 oldNum, newStart := numOr1 newNum,
            oldCount := 0, newCount := 0, lines := [] } : Section'))
      else
        (st.sections,
         match st.currentSection with
         | some s => s
         | none => { oldStart := 1, newStart := 1, oldCount := 0, newCount := 0, lines := [] })
    let pfx : String := if type = "removed" then "-" else if type = "added" then "+" else " "
    let cur := { cur with lines := cur.lines ++ [pfx ++ text] }
    let cur :=
      if type = "removed" then { cur with oldCount := cur.oldCount + 1 }
      else if type = "added" then { cur with newCount := cur.newCount + 1 }
      else { cur with oldCount := cur.oldCount + 1, newCount := cur.newCount + 1 }
    { sections := sections, currentSection := some cur,
      prevOldNum := oldNum, prevNewNum := newNum }

/-- `extractDiffFromGitLabHTML(html)` from
src/src/components/preview/diff-renderer.js, over the list of `.line_holder`
records the DOM parse exposes: reconstructs unified-diff hunks from
line-number discontinuities and formats them as
`@@ -oldStart,oldCount +newStart,newCount @@` blocks joined by newlines;
no recognizable lines gives the empty string. -/
def extractDiffFromGitLabHTML (holders : List LineHolder) : String :=
  let st := holders.foldl extractStep
    { sections := [], currentSection := none, prevOldNum := none, prevNewNum := none }
  let sections := match st.currentSection with
    | some s => st.sections ++ [s]
    | none => st.sections
  if sections.length = 0 then ""
  else
    String.intercalate "\n"
      (sections.map (fun s =>
        "@@ -" ++ s.oldStart.repr ++ "," ++ Nat.repr s.oldCount ++ " +" ++
          s.newStart.repr ++ "," ++ Nat.repr s.newCount ++ " @@\n" ++
          String.intercalate "\n" s.lines))

/-! ### Reference definitions written from the specification's words
(for the refinement-style claims that are compared against the code). -/

/-- Modelled from the words of claim C6 / spec §4.1: a line counts as an
addition iff it starts with `+` and is **not exactly** the string `+++`
(symmetrically for deletions and `---`). -/
def parseFileStats_spec : Option String → Stats
  | none => ⟨0, 0⟩
  | some s =>
    if s = "" then ⟨0, 0⟩
    else
      ⟨(jsSplit s '\n').countP (fun l => jsStartsWith l "+" && !(l == "+++")),
       (jsSplit s '\n').countP (fun l => jsStartsWith l "-" && !(l == "---"))⟩

/-- Modelled from the words of claim C8 / spec §4.3: the filename→language
table is consulted **before** falling back to the extension, and escaped
plain text is produced when no grammar matches or highlighting fails. -/
def highlightCode_spec (h : Hljs) (content fileExt filename : String) : String :=
  if jsTrim content = "" then escapeHtml content
  else
    let lang? : Option String :=
      match fileLanguageMapping filename with
      | some l =>
        if h.getLanguage l then some l
        else if h.getLanguage fileExt then some fileExt else none
      | none => if h.getLanguage fileExt then some fileExt else none
    match lang? with
    | some l => (h.highlight content l).getD (escapeHtml content)
    | none => escapeHtml content

/-- The language-selection rule the code actually implements: the extension
is consulted first, the filename table only when the extension names no
registered grammar, and escaped plain text otherwise; a highlighter failure
also degrades to escaped plain text. -/
def highlightCode_amendedRule (h : Hljs) (content fileExt filename : String) : String :=
  if jsTrim content = "" then escapeHtml content
  else
    let lang? : Option String :=
      if h.getLanguage fileExt then some fileExt
      else
        match fileLanguageMapping filename with
        | some l => if h.getLanguage l then some l else none
        | none => none
    match lang? with
    | some l => (h.highlight content l).getD (escapeHtml content)
    | none => escapeHtml content

/-- A highlighter model with no registered grammar: always escapes. -/
def hljsNone : Hljs := ⟨fun _ => false, fun _ _ => none⟩

/-- A highlighter model knowing both `yml` and `yaml`, reporting the chosen
language in its output. -/
def hljsYaml : Hljs := ⟨fun l => l = "yml" || l = "yaml", fun c l => some ("[" ++ l ++ "]" ++ c)⟩

/-- A word-differ model returning the whole old text as removed and the whole
new text as added. -/
def wholeLineDiff : WordDiff := fun o n => [⟨o, false, true⟩, ⟨n, true, false⟩]

/-- Path-segment lists of two files are incomparable: neither is a (not
necessarily proper) prefix of the other.  This is the well-formedness
condition on changed-file lists under which `buildFileTree` is exception-free
and its stats invariant holds; a real commit's file list satisfies it because
no changed path is a directory prefix of another changed path. -/
def pathsIncomparable (f g : FileChange) : Prop :=
  ¬ (jsSplit f.path '/') <+: (jsSplit g.path '/') ∧
  ¬ (jsSplit g.path '/') <+: (jsSplit f.path '/')

/-! ## Helper lemmas about the line classifiers -/

theorem jsStartsWith_head {l p : String} {c : Char}
    (hp : p.data = [c]) (h : jsStartsWith l p = true) : ∃ cs, l.data = c :: cs := by
  unfold jsStartsWith at h
  rw [hp] at h
  cases hld : l.data with
  | nil => rw [hld] at h; simp [List.isPrefixOf] at h
  | cons x xs =>
    rw [hld] at h
    simp [List.isPrefixOf] at h
    exact ⟨xs, by rw [h]⟩

theorem isAddLine_head {l : String} (h : isAddLine l = true) : ∃ cs, l.data = '+' :: cs := by
  simp only [isAddLine, Bool.and_eq_true] at h
  exact jsStartsWith_head (p := "+") rfl h.1

theorem isRemLine_head {l : String} (h : isRemLine l = true) : ∃ cs, l.data = '-' :: cs := by
  simp only [isRemLine, Bool.and_eq_true] at h
  exact jsStartsWith_head (p := "-") rfl h.1

theorem isAddLine_not_isRemLine {l : String} (h : isAddLine l = true) : isRemLine l = false := by
  obtain ⟨cs, hcs⟩ := isAddLine_head h
  simp [isRemLine, jsStartsWith, hcs, List.isPrefixOf]

theorem isRemLine_not_isAddLine {l : String} (h : isRemLine l = true) : isAddLine l = false := by
  obtain ⟨cs, hcs⟩ := isRemLine_head h
  simp [isAddLine, jsStartsWith, hcs, List.isPrefixOf]

/-! ## Claim theorems -/

/-- C3: the folder-collapse pass merges every folder whose child map has
exactly one entry that is itself a folder with that single child, renaming
the child `"parent/child"` (first conjunct, the merge rule for an arbitrary
such folder), so a single file at `a/b/c/file.txt` (where `a` and `b` have no
siblings) builds to exactly the root `"/"`, one collapsed folder keyed
`"a/b/c"`, and the file node `file.txt` inside it — not four folders. -/
theorem C3_collapse_single_chain :
    (∀ (cn gk gn : String) (gch : List (String × TreeNode)) (gst : Option String)
        (gs : Stats) (cst : Option String) (cs : Stats),
      mergeCandidate (.folder cn [(gk, .folder gn gch gst gs)] cst cs) =
        some (.folder (cn ++ "/" ++ gn) gch gst gs)) ∧
    buildFileTree [⟨"a/b/c/file.txt", "a/b/c/file.txt", 0, "added", some "+hello\n"⟩] =
    .ok (.folder "/"
      [("a/b/c", .folder "a/b/c"
        [("file.txt", .file "file.txt" "a/b/c/file.txt" "a/b/c/file.txt" 0 "added"
            (some "+hello\n") ⟨1, 0⟩)]
        (some "added") ⟨1, 0⟩)]
      none ⟨1, 0⟩) :=
  ⟨fun _ _ _ _ _ _ _ _ => rfl, rfl⟩

/-- C4: `extractDiffFromGitLabHTML` starts a new hunk exactly on the first
line or on a line-number jump greater than one: the fragment with lines
old=5/new=5 (context), old=6/new=6 (context), old=20/new=19 (added) yields
exactly two `@@` hunk headers, and an input with no recognizable line
elements yields the empty string. -/
theorem C4_extract_hunk_boundaries :
    extractDiffFromGitLabHTML [
      ⟨"x", some "5", some "5", false, false⟩,
      ⟨"y", some "6", some "6", false, false⟩,
      ⟨"z", some "20", some "19", false, true⟩] =
      "@@ -5,2 +5,2 @@\n x\n y\n@@ -20,0 +19,1 @@\n+z" ∧
    ((jsSplit (extractDiffFromGitLabHTML [
      ⟨"x", some "5", some "5", false, false⟩,
      ⟨"y", some "6", some "6", false, false⟩,
      ⟨"z", some "20", some "19", false, true⟩]) '\n').countP
        (fun l => jsStartsWith l "@@")) = 2 ∧
    extractDiffFromGitLabHTML [] = "" := by
  refine ⟨rfl, rfl, rfl⟩

/-- C5: hunk headers reset the line counters to the header's start values and
context/added/removed lines advance both/new-only/old-only: after
`@@ -1,2 +1,3 @@` and one context line, the removed line shows old number 2,
and the two added lines show consecutive new numbers 2 and 3 (newStart+1
onward); a second hunk `@@ -10,2 +20,3 @@` resets the counters to 10/20. -/
theorem C5_line_number_rendering :
    renderDiff hljsNone wholeLineDiff (some "@@ -1,2 +1,3 @@\n x\n-y\n+a\n+b") "f.txt" =
      .table [
        .normLine "context" "1" "1" "x",
        .normLine "removed" "2" "" "y",
        .normLine "added" "" "2" "a",
        .normLine "added" "" "3" "b"] ∧
    renderDiff hljsNone wholeLineDiff (some "@@ -1,1 +1,1 @@\n x\n@@ -10,2 +20,3 @@\n y") "f.txt" =
      .table [
        .normLine "context" "1" "1" "x",
        .separator,
        .normLine "context" "10" "20" "y"] := by
  refine ⟨rfl, rfl⟩

/-- C9: `renderDiff` on a null diff and on the empty-string diff both produce
the fixed empty-diff placeholder (and, being a total function of its
arguments, never throws), for every highlighter, word-differ and file path. -/
theorem C9_empty_diff_placeholder (h : Hljs) (w : WordDiff) (path : String) :
    renderDiff h w none path = .empty ∧ renderDiff h w (some "") path = .empty := by
  exact ⟨rfl, by simp [renderDiff]⟩

/-- C6 counterexample: the claim's rule "not **exactly** `+++`/`---`" differs
from the code, which excludes every line *starting with* `+++`/`---`: on the
diff `--- a/f\n+++ b/f\n+x` the code counts `{1, 0}` while the claim's rule
counts `{2, 1}` (the two file-header lines are not exactly `+++`/`---`). -/
theorem C6_counterexample :
    ¬ (∀ d, parseFileStats d = parseFileStats_spec d) := by
  intro h
  have := h (some "--- a/f\n+++ b/f\n+x")
  exact absurd this (by decide)

/-- C6 (amended): `parseFileStats` returns additions equal to the number of
lines starting with `+` but **not starting with** `+++`, deletions equal to
the number of lines starting with `-` but not starting with `---`, and
`{0, 0}` on null input. -/
theorem C6_parse_stats_counts :
    parseFileStats none = ⟨0, 0⟩ ∧
    ∀ s, parseFileStats (some s) =
      ⟨(jsSplit s '\n').countP isAddLine, (jsSplit s '\n').countP isRemLine⟩ := by
  constructor
  · rfl
  · intro s
    by_cases hs : s = ""
    · subst hs; rfl
    · show (if s = "" then (⟨0, 0⟩ : Stats) else _) = _
      rw [if_neg hs]
      generalize jsSplit s '\n' = lines
      suffices h : ∀ (lines : List String) (a d : Nat),
          lines.foldl
            (fun acc line =>
              if isAddLine line then ⟨acc.additions + 1, acc.deletions⟩
              else if isRemLine line then ⟨acc.additions, acc.deletions + 1⟩
              else acc)
            (⟨a, d⟩ : Stats) =
          ⟨a + lines.countP isAddLine, d + lines.countP isRemLine⟩ by
        simpa using h lines 0 0
      intro lines
      induction lines with
      | nil => intro a d; simp
      | cons l tl ih =>
        intro a d
        by_cases hadd : isAddLine l = true
        · have hrem : isRemLine l = false := isAddLine_not_isRemLine hadd
          simp only [List.foldl_cons, hadd, if_pos rfl, List.countP_cons, hrem]
          rw [ih]
          simp [Nat.add_assoc, Nat.add_comm 1]
        · have hadd' : isAddLine l = false := by simpa using hadd
          by_cases hrem : isRemLine l = true
          · simp only [List.foldl_cons, hadd', Bool.false_eq_true, if_false, hrem,
              if_pos rfl, List.countP_cons]
            rw [ih]
            simp [hadd', hrem, Nat.add_assoc, Nat.add_comm 1]
          · have hrem' : isRemLine l = false := by simpa using hrem
            simp only [List.foldl_cons, hadd', hrem', Bool.false_eq_true, if_false,
              List.countP_cons]
            rw [ih]
            simp [hadd', hrem']

/-- C8 counterexample: `highlightCode` consults the *extension* first and the
filename table only as a fallback, not the other way around as the claim
states: for `docker-compose.yml` with a highlighter registering both `yml`
and `yaml`, the code highlights with the extension `yml` while the claim's
table-first rule would use the table entry `yaml`. -/
theorem C8_counterexample :
    ¬ (∀ (h : Hljs) (content fileExt filename : String),
        highlightCode h content fileExt filename =
          highlightCode_spec h content fileExt filename) := by
  intro h
  have := h hljsYaml "x" "yml" "docker-compose.yml"
  rw [show highlightCode hljsYaml "x" "yml" "docker-compose.yml" = "[yml]x" from rfl,
      show highlightCode_spec hljsYaml "x" "yml" "docker-compose.yml" = "[yaml]x" from rfl]
    at this
  exact absurd this (by decide)

/-- C8 (amended): when choosing the highlighting language, the file's
extension is consulted first and the fixed filename→language table only when
the extension names no registered grammar; escaped plain text is produced
when neither matches, and a highlighter failure also degrades to escaped
plain text (no exception propagates, the function being total). -/
theorem C8_language_selection (h : Hljs) (content fileExt filename : String) :
    highlightCode h content fileExt filename =
      highlightCode_amendedRule h content fileExt filename := by
  unfold highlightCode highlightCode_amendedRule
  by_cases htrim : jsTrim content = ""
  · simp [htrim]
  · simp only [if_neg htrim]
    by_cases hext : h.getLanguage fileExt
    · simp [hext, Option.getD]
      cases h.highlight content fileExt <;> simp
    · simp only [hext, Bool.not_false, if_pos rfl, Bool.false_eq_true, if_false]
      cases hmap : fileLanguageMapping filename with
      | none => simp
      | some l =>
        by_cases hl : h.getLanguage l
        · simp [hl, Option.getD]
          cases h.highlight content l <;> simp
        · simp [hl]

/-- C1 counterexample: the stats invariant does not hold for every input
list: when a later file's path (`a`) is a directory prefix of an earlier
file's path (`a/b`), the file node overwrites the folder `a`, the earlier
file's counts remain in the root's stats, and the root's `stats` no longer
equals the sum over its descendant files. -/
theorem C1_counterexample :
    ¬ (∀ (files : List FileChange) (t : TreeNode), files ≠ [] →
        buildFileTree files = .ok t → statsOKb t = true) := by
  intro h
  have := h [⟨"a/b", "a/b", 0, "modified", some "+x"⟩, ⟨"a", "a", 1, "modified", none⟩]
    (.folder "/" [("a", .file "a" "a" "a" 1 "modified" none ⟨0, 0⟩)] none ⟨1, 0⟩)
    (by simp) rfl
  exact absurd this (by decide)

/-- C7 counterexample: an exception can escape `buildFileTree`: when an
earlier file's full path (`a`) is a directory prefix of a later file's path
(`a/b`), the insertion walk reads `.children` of the file node `a` and
throws a `TypeError`. -/
theorem C7_counterexample :
    ¬ (∀ files : List FileChange, ∃ t, buildFileTree files = .ok t) := by
  intro h
  obtain ⟨t, ht⟩ := h [⟨"a", "a", 0, "added", none⟩, ⟨"a/b", "a/b", 1, "added", some "+x"⟩]
  rw [show buildFileTree
      [⟨"a", "a", 0, "added", none⟩, ⟨"a/b", "a/b", 1, "added", some "+x"⟩] =
      .error () from rfl] at ht
  exact absurd ht (by simp)

/-- C2 counterexample: when the removed run is longer than the added run
(2 vs 1), the code does *not* render every line plain: it renders the first
removed line plain, re-scans from the second, and pairs the 1/1 suffix with
word-level spans, contradicting "when the lengths differ no pairing occurs". -/
theorem C2_counterexample :
    renderDiff hljsNone wholeLineDiff (some "-a x\n-b x\n+c x") "f.txt" =
      .table [
        .normLine "removed" "0" "" "a x",
        .modLine "removed" "1" "" [.wordRemoved "b x"],
        .modLine "added" "" "0" [.wordAdded "c x"]] := rfl

/-! ## Helper lemmas: stats arithmetic and the child-map operations -/

theorem Stats.add_zero (a : Stats) : a.add ⟨0, 0⟩ = a := by
  cases a; simp [Stats.add]

theorem Stats.zero_add (a : Stats) : (Stats.mk 0 0).add a = a := by
  cases a; simp [Stats.add]

theorem Stats.add_assoc (a b c : Stats) : (a.add b).add c = a.add (b.add c) := by
  cases a; cases b; cases c; simp [Stats.add, Nat.add_assoc]

theorem Stats.add_comm (a b : Stats) : a.add b = b.add a := by
  cases a; cases b; simp [Stats.add, Nat.add_comm]

theorem lookupE_append {l1 l2 : List (String × TreeNode)} {p : String}
    (h : lookupE l1 p = none) : lookupE (l1 ++ l2) p = lookupE l2 p := by
  induction l1 with
  | nil => rfl
  | cons e tl ih =>
    obtain ⟨k, v⟩ := e
    by_cases hk : k = p
    · simp [lookupE, hk] at h
    · simp only [lookupE, if_neg hk] at h
      simpa [lookupE, hk] using ih h

theorem lookupE_eq_some_decomp {ch : List (String × TreeNode)} {p : String} {c : TreeNode}
    (h : lookupE ch p = some c) :
    ∃ pre post, ch = pre ++ (p, c) :: post ∧ lookupE pre p = none := by
  induction ch with
  | nil => simp [lookupE] at h
  | cons e tl ih =>
    obtain ⟨k, v⟩ := e
    by_cases hk : k = p
    · subst hk
      have hv : v = c := by simpa [lookupE] using h
      exact ⟨[], tl, by simp [hv], rfl⟩
    · simp only [lookupE, if_neg hk] at h
      obtain ⟨pre, post, heq, hpre⟩ := ih h
      exact ⟨(k, v) :: pre, post, by simp [heq], by simp [lookupE, hk, hpre]⟩

theorem setE_append_of_none {ch : List (String × TreeNode)} {p : String}
    (h : lookupE ch p = none) (v : TreeNode) : setE ch p v = ch ++ [(p, v)] := by
  induction ch with
  | nil => rfl
  | cons e tl ih =>
    obtain ⟨k, w⟩ := e
    by_cases hk : k = p
    · simp [lookupE, hk] at h
    · simp only [lookupE, if_neg hk] at h
      simp [setE, hk, ih h]

theorem setE_decomp {pre post : List (String × TreeNode)} {p : String} {c : TreeNode}
    (h : lookupE pre p = none) (v : TreeNode) :
    setE (pre ++ (p, c) :: post) p v = pre ++ (p, v) :: post := by
  induction pre with
  | nil => simp [setE]
  | cons e tl ih =>
    obtain ⟨k, w⟩ := e
    by_cases hk : k = p
    · simp [lookupE, hk] at h
    · simp only [lookupE, if_neg hk] at h
      simp [setE, hk, ih h]

theorem eraseE_decomp {pre post : List (String × TreeNode)} {p : String} {c : TreeNode}
    (h : lookupE pre p = none) :
    eraseE (pre ++ (p, c) :: post) p = pre ++ post := by
  induction pre with
  | nil => simp [eraseE]
  | cons e tl ih =>
    obtain ⟨k, w⟩ := e
    by_cases hk : k = p
    · simp [lookupE, hk] at h
    · simp only [lookupE, if_neg hk] at h
      simp [eraseE, hk, ih h]

theorem lookupE_setE_self (ch : List (String × TreeNode)) (p : String) (v : TreeNode) :
    lookupE (setE ch p v) p = some v := by
  induction ch with
  | nil => simp [setE, lookupE]
  | cons e tl ih =>
    obtain ⟨k, w⟩ := e
    by_cases hk : k = p
    · simp [setE, lookupE, hk]
    · simp [setE, lookupE, hk, ih]

theorem setE_setE (ch : List (String × TreeNode)) (p : String) (v w : TreeNode) :
    setE (setE ch p v) p w = setE ch p w := by
  induction ch with
  | nil => simp [setE]
  | cons e tl ih =>
    obtain ⟨k, x⟩ := e
    by_cases hk : k = p
    · simp [setE, hk]
    · simp [setE, hk, ih]

/-! ## Helper lemmas: aggregate observations over child lists -/

theorem descStatsL_append (l1 l2 : List (String × TreeNode)) :
    descStatsL (l1 ++ l2) = (descStatsL l1).add (descStatsL l2) := by
  induction l1 with
  | nil => simp [descStatsL, Stats.zero_add]
  | cons e tl ih => simp [descStatsL, ih, Stats.add_assoc]

theorem statsOKbL_append (l1 l2 : List (String × TreeNode)) :
    statsOKbL (l1 ++ l2) = (statsOKbL l1 && statsOKbL l2) := by
  induction l1 with
  | nil => simp [statsOKbL]
  | cons e tl ih => simp [statsOKbL, ih, Bool.and_assoc]

theorem hasFileBL_append (l1 l2 : List (String × TreeNode)) :
    hasFileBL (l1 ++ l2) = (hasFileBL l1 || hasFileBL l2) := by
  induction l1 with
  | nil => simp [hasFileBL]
  | cons e tl ih => simp [hasFileBL, ih, Bool.or_assoc]

theorem childrenHaveFilesBL_append (l1 l2 : List (String × TreeNode)) :
    childrenHaveFilesBL (l1 ++ l2) = (childrenHaveFilesBL l1 && childrenHaveFilesBL l2) := by
  induction l1 with
  | nil => simp [childrenHaveFilesBL]
  | cons e tl ih => simp [childrenHaveFilesBL, ih, Bool.and_assoc]

theorem filePathsL_append (l1 l2 : List (String × TreeNode)) :
    filePathsL (l1 ++ l2) = filePathsL l1 ++ filePathsL l2 := by
  induction l1 with
  | nil => simp [filePathsL]
  | cons e tl ih => simp [filePathsL, ih]

theorem withStatus_descStats (v : String) (c : TreeNode) :
    descStats (withStatus v c) = descStats c := by
  cases c <;> rfl

theorem withStatus_statsOKb (v : String) (c : TreeNode) :
    statsOKb (withStatus v c) = statsOKb c := by
  cases c <;> rfl

theorem withStatus_hasFileB (v : String) (c : TreeNode) :
    hasFileB (withStatus v c) = hasFileB c := by
  cases c <;> rfl

theorem withStatus_childrenHaveFilesB (v : String) (c : TreeNode) :
    childrenHaveFilesB (withStatus v c) = childrenHaveFilesB c := by
  cases c <;> rfl

theorem withStatus_filePaths (v : String) (c : TreeNode) :
    filePaths (withStatus v c) = filePaths c := by
  cases c <;> rfl

theorem withStatus_isFolder (v : String) (c : TreeNode) :
    (withStatus v c).isFolder = c.isFolder := by
  cases c <;> rfl

theorem statsOKbL_lookup {ch : List (String × TreeNode)} {p : String} {c : TreeNode}
    (hok : statsOKbL ch = true) (h : lookupE ch p = some c) : statsOKb c = true := by
  induction ch with
  | nil => simp [lookupE] at h
  | cons e tl ih =>
    obtain ⟨k, v⟩ := e
    simp only [statsOKbL, Bool.and_eq_true] at hok
    by_cases hk : k = p
    · have hv : v = c := by simpa [lookupE, hk] using h
      exact hv ▸ hok.1
    · exact ih hok.2 (by simpa [lookupE, hk] using h)

theorem childrenHaveFilesBL_lookup {ch : List (String × TreeNode)} {p : String} {c : TreeNode}
    (hok : childrenHaveFilesBL ch = true) (h : lookupE ch p = some c) :
    hasFileB c = true ∧ childrenHaveFilesB c = true := by
  induction ch with
  | nil => simp [lookupE] at h
  | cons e tl ih =>
    obtain ⟨k, v⟩ := e
    simp only [childrenHaveFilesBL, Bool.and_eq_true] at hok
    by_cases hk : k = p
    · have hv : v = c := by simpa [lookupE, hk] using h
      exact hv ▸ hok.1
    · exact ih hok.2 (by simpa [lookupE, hk] using h)

theorem filePathsL_mem_of_lookup {ch : List (String × TreeNode)} {p : String} {c : TreeNode}
    {q : List String} (h : lookupE ch p = some c) (hq : q ∈ filePaths c) :
    (p :: q) ∈ filePathsL ch := by
  induction ch with
  | nil => simp [lookupE] at h
  | cons e tl ih =>
    obtain ⟨k, v⟩ := e
    simp only [filePathsL, List.mem_append, List.mem_map]
    by_cases hk : k = p
    · have hv : v = c := by simpa [lookupE, hk] using h
      exact Or.inl ⟨q, hv ▸ hq, by rw [hk]⟩
    · exact Or.inr (ih (by simpa [lookupE, hk] using h))

theorem exceptBind_ok (a : TreeNode) (g : TreeNode → Except Unit TreeNode) :
    (Except.ok a >>= g) = g a := rfl

theorem exceptBind_error (g : TreeNode → Except Unit TreeNode) :
    ((Except.error () : Except Unit TreeNode) >>= g) = .error () := rfl

theorem addFile_eq_placeAt (root : TreeNode) (f : FileChange) :
    addFile root f = placeAt root (jsSplit f.path '/') f := rfl

theorem placeAt_single (n : String) (ch : List (String × TreeNode)) (st : Option String)
    (s : Stats) (p : String) (f : FileChange) :
    placeAt (.folder n ch st s) [p] f =
      .ok (.folder n (setE ch p (mkFileNode p f)) st
        (s.add (parseFileStats f.diff_content))) := rfl

theorem placeAt_cons (n : String) (ch : List (String × TreeNode)) (st : Option String)
    (s : Stats) (p : String) {rest : List String} (hne : rest ≠ []) (f : FileChange)
    {c : TreeNode} (hc : lookupE (updateChildStatus (ensureChild ch p) p f.status) p = some c) :
    placeAt (.folder n ch st s) (p :: rest) f =
      (placeAt c rest f).map (fun c' =>
        .folder n (setE (updateChildStatus (ensureChild ch p) p f.status) p c') st
          (s.add (parseFileStats f.diff_content))) := by
  obtain ⟨r, rs, rfl⟩ : ∃ r rs, rest = r :: rs := by
    cases rest with
    | nil => exact absurd rfl hne
    | cons r rs => exact ⟨r, rs, rfl⟩
  unfold placeAt
  simp only [insertWalk, hc]
  cases hsub : insertWalk c (r :: rs) f with
  | error e =>
    cases e
    rfl
  | ok sub =>
    show propagateWalk
        (.folder n (setE (updateChildStatus (ensureChild ch p) p f.status) p sub) st
          (s.add (parseFileStats f.diff_content)))
        (p :: (r :: rs).dropLast) (parseFileStats f.diff_content) =
      (propagateWalk (addStats (parseFileStats f.diff_content) sub) ((r :: rs).dropLast)
          (parseFileStats f.diff_content)).map
        (fun c' =>
          .folder n (setE (updateChildStatus (ensureChild ch p) p f.status) p c') st
            (s.add (parseFileStats f.diff_content)))
    simp only [propagateWalk, lookupE_setE_self]
    cases hprop : propagateWalk (addStats (parseFileStats f.diff_content) sub)
        ((r :: rs).dropLast) (parseFileStats f.diff_content) with
    | error e => cases e; rfl
    | ok sub2 =>
      show Except.ok (TreeNode.folder n
        (setE (setE (updateChildStatus (ensureChild ch p) p f.status) p sub) p sub2) st
        (s.add (parseFileStats f.diff_content))) = _
      rw [setE_setE]
      rfl

theorem setE_lookup_self {ch : List (String × TreeNode)} {p : String} {c : TreeNode}
    (h : lookupE ch p = some c) : setE ch p c = ch := by
  induction ch with
  | nil => simp [lookupE] at h
  | cons e tl ih =>
    obtain ⟨k, v⟩ := e
    by_cases hk : k = p
    · have hv : v = c := by simpa [lookupE, hk] using h
      simp [setE, hk, hv]
    · simp only [lookupE, if_neg hk] at h
      simp [setE, hk, ih h]

mutual
theorem hasFileB_filePaths_ne : ∀ t : TreeNode, hasFileB t = true → filePaths t ≠ []
  | .file .., _ => by simp [filePaths]
  | .folder n ch st s, h =>
    hasFileBL_filePathsL_ne ch (by simpa [hasFileB] using h)

theorem hasFileBL_filePathsL_ne :
    ∀ ch : List (String × TreeNode), hasFileBL ch = true → filePathsL ch ≠ []
  | [], h => by simp [hasFileBL] at h
  | (k, c) :: tl, h => by
    simp only [hasFileBL, Bool.or_eq_true] at h
    simp only [filePathsL]
    rcases h with h | h
    · have := hasFileB_filePaths_ne c h
      intro hcontra
      rcases List.append_eq_nil.mp hcontra with ⟨h1, _⟩
      exact this (List.map_eq_nil_iff.mp h1)
    · have := hasFileBL_filePathsL_ne tl h
      intro hcontra
      exact this (List.append_eq_nil.mp hcontra).2
end

theorem mem_filePathsL_of_lookup_file {ch : List (String × TreeNode)} {p : String}
    {c : TreeNode} (h : lookupE ch p = some c) (hf : c.isFolder = false) :
    [p] ∈ filePathsL ch := by
  cases c with
  | file name path op di st dc s =>
    exact filePathsL_mem_of_lookup h (by simp [filePaths])
  | folder name cch cst cs => simp [TreeNode.isFolder] at hf

theorem exists_path_of_lookup_folder {ch : List (String × TreeNode)} {p : String}
    {c : TreeNode} (h : lookupE ch p = some c) (_hfold : c.isFolder = true)
    (hch : childrenHaveFilesBL ch = true) : ∃ q, (p :: q) ∈ filePathsL ch := by
  have hfile := (childrenHaveFilesBL_lookup hch h).1
  have hne := hasFileB_filePaths_ne c hfile
  obtain ⟨q, hq⟩ := List.exists_mem_of_ne_nil _ hne
  exact ⟨q, filePathsL_mem_of_lookup h hq⟩

/-- The central construction lemma: inserting a file whose remaining path
`parts` is segment-incomparable with every file path already in the child
list yields a well-formed child list whose stats grew by exactly the file's
stats and whose file-path set grew by exactly `parts`. -/
theorem placeAt_spec (f : FileChange) :
    ∀ (parts : List String) (n : String) (ch : List (String × TreeNode))
      (st : Option String) (s : Stats),
    parts ≠ [] →
    statsOKbL ch = true → s = descStatsL ch →
    childrenHaveFilesBL ch = true →
    (∀ q ∈ filePathsL ch, ¬ q <+: parts ∧ ¬ parts <+: q) →
    ∃ ch', placeAt (.folder n ch st s) parts f =
        .ok (.folder n ch' st (s.add (parseFileStats f.diff_content))) ∧
      statsOKbL ch' = true ∧
      descStatsL ch' = (descStatsL ch).add (parseFileStats f.diff_content) ∧
      childrenHaveFilesBL ch' = true ∧
      hasFileBL ch' = true ∧
      (∀ q ∈ filePathsL ch', q ∈ filePathsL ch ∨ q = parts) := by
  intro parts
  induction parts with
  | nil => intro n ch st s hne; exact absurd rfl hne
  | cons p rest ih =>
    intro n ch st s _ hok hs hch hcompat
    by_cases hrest : rest = []
    · -- final segment: the file node is appended under `p`
      subst hrest
      have hlk : lookupE ch p = none := by
        cases hlk : lookupE ch p with
        | none => rfl
        | some c =>
          exfalso
          cases hcfold : c.isFolder with
          | false =>
            have hmem := mem_filePathsL_of_lookup_file hlk hcfold
            exact (hcompat [p] hmem).1 (List.prefix_refl [p])
          | true =>
            obtain ⟨q, hq⟩ := exists_path_of_lookup_folder hlk hcfold hch
            exact (hcompat (p :: q) hq).2 (by
              rw [List.cons_prefix_cons]
              exact ⟨rfl, List.nil_prefix⟩)
      refine ⟨ch ++ [(p, mkFileNode p f)], ?_, ?_, ?_, ?_, ?_, ?_⟩
      · rw [placeAt_single, setE_append_of_none hlk]
      · simp [statsOKbL_append, hok, statsOKbL, mkFileNode, statsOKb]
      · simp only [descStatsL_append, descStatsL, mkFileNode, descStats]
        rw [Stats.add_zero]
      · simp [childrenHaveFilesBL_append, hch, childrenHaveFilesBL, childrenHaveFilesB,
          hasFileB, mkFileNode]
      · simp [hasFileBL_append, hasFileBL, hasFileB, mkFileNode]
      · intro q hq
        rw [filePathsL_append] at hq
        rcases List.mem_append.mp hq with hq | hq
        · exact Or.inl hq
        · right
          simpa [filePathsL, filePaths, mkFileNode] using hq
    · -- intermediate segment: walk into (or create) the folder under `p`
      cases hlk : lookupE ch p with
      | none =>
        -- a fresh empty folder is appended, status-updated, and recursed into
        have hch1 : ensureChild ch p = ch ++ [(p, mkFolderNode p)] := by
          simp [ensureChild, hlk]
        have hlk1 : lookupE (ch ++ [(p, mkFolderNode p)]) p = some (mkFolderNode p) := by
          rw [lookupE_append hlk]; simp [lookupE]
        -- the (possibly) status-updated fresh folder
        obtain ⟨st₀, hch2⟩ : ∃ st₀,
            updateChildStatus (ensureChild ch p) p f.status =
              ch ++ [(p, .folder p [] st₀ ⟨0, 0⟩)] := by
          rw [hch1]
          unfold updateChildStatus
          simp only [hlk1]
          by_cases hcond : (f.status ≠ "" && (statusFalsy (mkFolderNode p) || f.status = "modified")) = true
          · refine ⟨some f.status, ?_⟩
            rw [if_pos hcond, setE_decomp hlk]
            rfl
          · refine ⟨none, ?_⟩
            rw [if_neg hcond]
            rfl
        obtain ⟨ch'', hplace, hok'', hds'', hch'', hhf'', hfp''⟩ :=
          ih p ([] : List (String × TreeNode)) st₀ ⟨0, 0⟩ hrest rfl rfl rfl
            (by intro q hq; simp [filePathsL] at hq)
        have hlk2 : lookupE (updateChildStatus (ensureChild ch p) p f.status) p =
            some (.folder p [] st₀ ⟨0, 0⟩) := by
          rw [hch2, lookupE_append hlk]; simp [lookupE]
        have hstep := placeAt_cons n ch st s p hrest f hlk2
        rw [hplace] at hstep
        have hsetE : setE (updateChildStatus (ensureChild ch p) p f.status) p
            (.folder p ch'' st₀ ((⟨0, 0⟩ : Stats).add (parseFileStats f.diff_content))) =
            ch ++ [(p, .folder p ch'' st₀ ((⟨0, 0⟩ : Stats).add (parseFileStats f.diff_content)))] := by
          rw [hch2, setE_decomp hlk]
        refine ⟨ch ++ [(p, .folder p ch'' st₀
            ((⟨0, 0⟩ : Stats).add (parseFileStats f.diff_content)))], ?_, ?_, ?_, ?_, ?_, ?_⟩
        · rw [hstep]
          simp only [Except.map]
          rw [hsetE]
        · simp only [statsOKbL_append, hok, statsOKbL, statsOKb, hok'', Bool.and_true,
            Bool.true_and]
          simp only [descStatsL] at hds''
          rw [hds'', Stats.zero_add]
          simp [Stats.zero_add]
        · simp only [descStatsL_append, descStatsL, descStats, hds'']
          cases descStatsL ch <;> cases parseFileStats f.diff_content <;>
            simp [Stats.add, Stats.zero_add]
        · simp [childrenHaveFilesBL_append, hch, childrenHaveFilesBL, childrenHaveFilesB,
            hasFileB, hhf'', hch'']
        · simp [hasFileBL_append, hasFileBL, hasFileB, hhf'']
        · intro q hq
          rw [filePathsL_append] at hq
          rcases List.mem_append.mp hq with hq | hq
          · exact Or.inl hq
          · right
            simp only [filePathsL, filePaths, List.append_nil, List.mem_map] at hq
            obtain ⟨q', hq', rfl⟩ := hq
            rcases hfp'' q' hq' with h' | h'
            · simp [filePathsL] at h'
            · rw [h']
      | some c =>
        -- the existing entry must be a folder
        obtain ⟨cn, cch, cst, cs, rfl⟩ : ∃ cn cch cst cs, c = .folder cn cch cst cs := by
          cases hcfold : c.isFolder with
          | false =>
            exfalso
            have hmem := mem_filePathsL_of_lookup_file hlk hcfold
            exact (hcompat [p] hmem).1 (by
              rw [List.cons_prefix_cons]
              exact ⟨rfl, List.nil_prefix⟩)
          | true =>
            cases c with
            | file name path op di st' dc s' => simp [TreeNode.isFolder] at hcfold
            | folder cn cch cst cs => exact ⟨cn, cch, cst, cs, rfl⟩
        obtain ⟨pre, post, hdecomp, hpre⟩ := lookupE_eq_some_decomp hlk
        have hch1 : ensureChild ch p = ch := by simp [ensureChild, hlk]
        obtain ⟨st₂, hch2⟩ : ∃ st₂,
            updateChildStatus (ensureChild ch p) p f.status =
              pre ++ (p, .folder cn cch st₂ cs) :: post := by
          rw [hch1]
          unfold updateChildStatus
          simp only [hlk]
          by_cases hcond : (f.status ≠ "" &&
              (statusFalsy (.folder cn cch cst cs) || f.status = "modified")) = true
          · refine ⟨some f.status, ?_⟩
            rw [if_pos hcond, hdecomp, setE_decomp hpre]
            rfl
          · exact ⟨cst, by rw [if_neg hcond, hdecomp]⟩
        -- invariants of the existing child
        have hokc : statsOKb (.folder cn cch cst cs) = true := statsOKbL_lookup hok hlk
        have hchc := childrenHaveFilesBL_lookup hch hlk
        simp only [statsOKb, Bool.and_eq_true, decide_eq_true_eq] at hokc
        have hchc2 : childrenHaveFilesBL cch = true := by
          have := hchc.2
          simpa [childrenHaveFilesB] using this
        obtain ⟨ch'', hplace, hok'', hds'', hch'', hhf'', hfp''⟩ :=
          ih cn cch st₂ cs hrest hokc.2 hokc.1 hchc2
            (by
              intro q hq
              have hmem : (p :: q) ∈ filePathsL ch :=
                filePathsL_mem_of_lookup hlk (by simpa [filePaths] using hq)
              have := hcompat (p :: q) hmem
              constructor
              · intro hpre'
                exact this.1 (by rw [List.cons_prefix_cons]; exact ⟨rfl, hpre'⟩)
              · intro hpre'
                exact this.2 (by rw [List.cons_prefix_cons]; exact ⟨rfl, hpre'⟩))
        have hlk2 : lookupE (updateChildStatus (ensureChild ch p) p f.status) p =
            some (.folder cn cch st₂ cs) := by
          rw [hch2, lookupE_append hpre]
          simp [lookupE]
        have hstep := placeAt_cons n ch st s p hrest f hlk2
        rw [hplace] at hstep
        have hsetE : setE (updateChildStatus (ensureChild ch p) p f.status) p
            (.folder cn ch'' st₂ (cs.add (parseFileStats f.diff_content))) =
            pre ++ (p, .folder cn ch'' st₂ (cs.add (parseFileStats f.diff_content))) :: post := by
          rw [hch2, setE_decomp hpre]
        refine ⟨pre ++ (p, .folder cn ch'' st₂ (cs.add (parseFileStats f.diff_content))) :: post,
          ?_, ?_, ?_, ?_, ?_, ?_⟩
        · rw [hstep]
          simp only [Except.map]
          rw [hsetE]
        · have hokch : statsOKbL (pre ++ (p, TreeNode.folder cn cch cst cs) :: post) = true := by
            rw [← hdecomp]; exact hok
          rw [statsOKbL_append, Bool.and_eq_true] at hokch ⊢
          refine ⟨hokch.1, ?_⟩
          simp only [statsOKbL, statsOKb, Bool.and_eq_true, decide_eq_true_eq] at hokch ⊢
          refine ⟨⟨?_, hok''⟩, hokch.2.2⟩
          rw [hds'', ← hokc.1]
        · rw [hdecomp]
          simp only [descStatsL_append, descStatsL, descStats, hds'']
          cases descStatsL pre <;> cases descStatsL cch <;> cases descStatsL post <;>
            cases parseFileStats f.diff_content <;> simp [Stats.add] <;> omega
        · have hchch : childrenHaveFilesBL (pre ++ (p, TreeNode.folder cn cch cst cs) :: post)
              = true := by rw [← hdecomp]; exact hch
          rw [childrenHaveFilesBL_append, Bool.and_eq_true] at hchch ⊢
          refine ⟨hchch.1, ?_⟩
          simp only [childrenHaveFilesBL, Bool.and_eq_true] at hchch ⊢
          exact ⟨⟨by simpa [hasFileB] using hhf'', by simpa [childrenHaveFilesB] using hch''⟩,
            hchch.2.2⟩
        · rw [hasFileBL_append, Bool.or_eq_true]
          right
          simp [hasFileBL, hasFileB, hhf'']
        · intro q hq
          rw [filePathsL_append] at hq
          rcases List.mem_append.mp hq with hq | hq
          · left
            rw [hdecomp, filePathsL_append]
            exact List.mem_append.mpr (Or.inl hq)
          · simp only [filePathsL, List.mem_append, List.mem_map] at hq
            rcases hq with ⟨q', hq', rfl⟩ | hq
            · rcases hfp'' q' hq' with h' | h'
              · left
                rw [hdecomp, filePathsL_append]
                refine List.mem_append.mpr (Or.inr ?_)
                simp only [filePathsL, List.mem_append, List.mem_map, filePaths]
                exact Or.inl ⟨q', h', rfl⟩
              · right; rw [h']
            · left
              rw [hdecomp, filePathsL_append]
              refine List.mem_append.mpr (Or.inr ?_)
              simp only [filePathsL, List.mem_append, filePaths]
              exact Or.inr hq

theorem jsSplit_ne_nil (s : String) (c : Char) : jsSplit s c ≠ [] := by
  unfold jsSplit
  intro h
  exact List.splitOnP_ne_nil _ _ (List.map_eq_nil_iff.mp h)

/-- Folding `addFile` over a pairwise path-incomparable file list keeps the
root well-formed: all stats invariants hold and the file-path set grows by
exactly the files' segment lists. -/
theorem foldl_addFile_spec :
    ∀ (files : List FileChange) (n : String) (ch : List (String × TreeNode))
      (st : Option String) (s : Stats),
    statsOKbL ch = true → s = descStatsL ch → childrenHaveFilesBL ch = true →
    (∀ q ∈ filePathsL ch, ∀ f ∈ files,
      ¬ q <+: (jsSplit f.path '/') ∧ ¬ (jsSplit f.path '/') <+: q) →
    List.Pairwise pathsIncomparable files →
    ∃ ch' s', files.foldlM addFile (.folder n ch st s) = .ok (.folder n ch' st s') ∧
      statsOKbL ch' = true ∧ s' = descStatsL ch' ∧ childrenHaveFilesBL ch' = true ∧
      (∀ q ∈ filePathsL ch', q ∈ filePathsL ch ∨ ∃ f ∈ files, q = jsSplit f.path '/') := by
  intro files
  induction files with
  | nil =>
    intro n ch st s hok hs hch _ _
    exact ⟨ch, s, rfl, hok, hs, hch, fun q hq => Or.inl hq⟩
  | cons f fs ihf =>
    intro n ch st s hok hs hch hcompat hpw
    obtain ⟨ch1, hplace, hok1, hds1, hch1, _, hfp1⟩ :=
      placeAt_spec f (jsSplit f.path '/') n ch st s (jsSplit_ne_nil _ _) hok hs hch
        (fun q hq => hcompat q hq f (List.mem_cons_self f fs))
    rw [List.pairwise_cons] at hpw
    obtain ⟨ch', s', hfold, hok', hs', hch', hfp'⟩ :=
      ihf n ch1 st (s.add (parseFileStats f.diff_content)) hok1 (by rw [hds1, hs]) hch1
        (by
          intro q hq g hg
          rcases hfp1 q hq with hmem | rfl
          · exact hcompat q hmem g (List.mem_cons_of_mem f hg)
          · exact (hpw.1 g hg : pathsIncomparable f g))
        hpw.2
    refine ⟨ch', s', ?_, hok', hs', hch', ?_⟩
    · show List.foldlM addFile (.folder n ch st s) (f :: fs) = _
      rw [List.foldlM_cons, addFile_eq_placeAt, hplace]
      exact hfold
    · intro q hq
      rcases hfp' q hq with hmem | hex
      · rcases hfp1 q hmem with hmem' | rfl
        · exact Or.inl hmem'
        · exact Or.inr ⟨f, List.mem_cons_self f fs, rfl⟩
      · obtain ⟨g, hg, hq'⟩ := hex
        exact Or.inr ⟨g, List.mem_cons_of_mem f hg, hq'⟩

theorem mergeCandidate_inv {c g : TreeNode} (h : mergeCandidate c = some g) :
    ∃ cn gk gn gch gst gs cst cs,
      c = .folder cn [(gk, .folder gn gch gst gs)] cst cs ∧
      g = .folder (cn ++ "/" ++ gn) gch gst gs := by
  cases c with
  | file n p op di st dc s => simp [mergeCandidate] at h
  | folder cn cch cst cs =>
    cases cch with
    | nil => simp [mergeCandidate] at h
    | cons e tl =>
      obtain ⟨gk, gnode⟩ := e
      cases tl with
      | cons e2 tl2 => simp [mergeCandidate] at h
      | nil =>
        cases gnode with
        | file n p op di st dc s => simp [mergeCandidate] at h
        | folder gn gch gst gs =>
          refine ⟨cn, gk, gn, gch, gst, gs, cst, cs, rfl, ?_⟩
          simp only [mergeCandidate, Option.some.injEq] at h
          exact h.symm

/-- One scan pass of the collapse loop preserves the node's name, status and
own stats, the descendant-file stats and file-presence of the children, and
the well-formedness invariants — provided the recursive collapse `F` it
invokes does so. -/
theorem collapseGo_spec (F : TreeNode → TreeNode)
    (hshape : ∀ n ch st s, ∃ ch', F (.folder n ch st s) = .folder n ch' st s)
    (hdesc : ∀ t, descStats (F t) = descStats t)
    (hhf : ∀ t, hasFileB (F t) = hasFileB t)
    (hgood : ∀ t, goodB t = true → goodB (F t) = true) :
    ∀ (keys : List String) (ch : List (String × TreeNode)) (n : String)
      (st : Option String) (s : Stats),
    ∃ ch', collapseGo F n st s keys ch = .folder n ch' st s ∧
      descStatsL ch' = descStatsL ch ∧
      hasFileBL ch' = hasFileBL ch ∧
      (statsOKbL ch = true → s = descStatsL ch → childrenHaveFilesBL ch = true →
        statsOKbL ch' = true ∧ childrenHaveFilesBL ch' = true) := by
  intro keys
  induction keys with
  | nil =>
    intro ch n st s
    exact ⟨ch, rfl, rfl, rfl, fun h1 _ h3 => ⟨h1, h3⟩⟩
  | cons key keys ihk =>
    intro ch n st s
    cases hlk : lookupE ch key with
    | none =>
      obtain ⟨ch', hgo, h1, h2, h3⟩ := ihk ch n st s
      exact ⟨ch', by simpa [collapseGo, hlk] using hgo, h1, h2, h3⟩
    | some c =>
      cases c with
      | file nm pth op di st' dc s' =>
        obtain ⟨ch', hgo, h1, h2, h3⟩ := ihk ch n st s
        exact ⟨ch', by simpa [collapseGo, hlk] using hgo, h1, h2, h3⟩
      | folder cn cch cst ccs =>
        obtain ⟨cch', hF⟩ := hshape cn cch cst ccs
        obtain ⟨pre, post, hdec, hpre⟩ := lookupE_eq_some_decomp hlk
        have hset : setE ch key (F (.folder cn cch cst ccs)) =
            pre ++ (key, .folder cn cch' cst ccs) :: post := by
          rw [hdec, setE_decomp hpre, hF]
        have hdesc_c : descStatsL cch' = descStatsL cch := by
          have := hdesc (.folder cn cch cst ccs)
          rw [hF] at this
          simpa [descStats] using this
        have hhf_c : hasFileBL cch' = hasFileBL cch := by
          have := hhf (.folder cn cch cst ccs)
          rw [hF] at this
          simpa [hasFileB] using this
        -- the child list with the collapsed child substituted in
        have hdesc1 : descStatsL (pre ++ (key, TreeNode.folder cn cch' cst ccs) :: post) =
            descStatsL ch := by
          rw [hdec]
          simp [descStatsL_append, descStatsL, descStats, hdesc_c]
        have hhf1 : hasFileBL (pre ++ (key, TreeNode.folder cn cch' cst ccs) :: post) =
            hasFileBL ch := by
          rw [hdec]
          simp [hasFileBL_append, hasFileBL, hasFileB, hhf_c]
        have hgood1 : statsOKbL ch = true → childrenHaveFilesBL ch = true →
            statsOKbL (pre ++ (key, TreeNode.folder cn cch' cst ccs) :: post) = true ∧
            childrenHaveFilesBL (pre ++ (key, TreeNode.folder cn cch' cst ccs) :: post)
              = true := by
          intro hok hch
          have hokc : statsOKb (.folder cn cch cst ccs) = true := statsOKbL_lookup hok hlk
          have hchc := childrenHaveFilesBL_lookup hch hlk
          have hgc : goodB (F (.folder cn cch cst ccs)) = true := by
            apply hgood
            simp [goodB, hokc, hchc.2]
          rw [hF] at hgc
          simp only [goodB, Bool.and_eq_true] at hgc
          have hhf_c' : hasFileB (TreeNode.folder cn cch' cst ccs) = true := by
            simp only [hasFileB, hhf_c]
            simpa [hasFileB] using hchc.1
          subst hdec
          simp only [statsOKbL_append, childrenHaveFilesBL_append, statsOKbL,
            childrenHaveFilesBL, Bool.and_eq_true] at hok hch ⊢
          exact ⟨⟨hok.1, hgc.1, hok.2.2⟩, ⟨hch.1, ⟨hhf_c', hgc.2⟩, hch.2.2⟩⟩
        cases hmc : mergeCandidate (F (.folder cn cch cst ccs)) with
        | none =>
          obtain ⟨ch', hgo, h1, h2, h3⟩ :=
            ihk (pre ++ (key, TreeNode.folder cn cch' cst ccs) :: post) n st s
          refine ⟨ch', ?_, by rw [h1, hdesc1], by rw [h2, hhf1], ?_⟩
          · rw [show collapseGo F n st s (key :: keys) ch =
              collapseGo F n st s keys (setE ch key (F (.folder cn cch cst ccs))) by
                simp [collapseGo, hlk, hmc]]
            rw [hset]
            exact hgo
          · intro hok hs hch
            exact h3 (hgood1 hok hch).1 (by rw [hdesc1, ← hs]) (hgood1 hok hch).2
        | some g =>
          obtain ⟨cn2, gk, gn, gch, gst, gs, cst2, cs2, hcfold, hg⟩ := mergeCandidate_inv hmc
          rw [hF] at hcfold
          obtain ⟨he1, he2, he3, he4⟩ : cn = cn2 ∧ cch' = [(gk, .folder gn gch gst gs)] ∧
              cst = cst2 ∧ ccs = cs2 := by
            cases hcfold
            exact ⟨rfl, rfl, rfl, rfl⟩
          subst he1; subst he3; subst he4
          -- the merged child list
          have hch2eq : eraseE (setE ch key (F (.folder cn cch cst ccs))) key ++ [(g.name, g)]
              = pre ++ post ++ [(g.name, g)] := by
            rw [hset, eraseE_decomp hpre]
          have hgoal : collapseGo F n st s (key :: keys) ch =
              F (.folder n (pre ++ post ++ [(g.name, g)]) st s) := by
            rw [show collapseGo F n st s (key :: keys) ch =
              F (.folder n (eraseE (setE ch key (F (.folder cn cch cst ccs))) key
                ++ [(g.name, g)]) st s) from by simp [collapseGo, hlk, hmc]]
            rw [hch2eq]
          obtain ⟨ch', hF2⟩ := hshape n (pre ++ post ++ [(g.name, g)]) st s
          -- descendant stats of the merged grandchild equal those of the child
          have hdesc_g : descStats g = descStatsL cch := by
            rw [hg]
            have : descStatsL cch' = (descStatsL gch).add ⟨0, 0⟩ := by
              rw [he2]; simp [descStatsL, descStats]
            rw [Stats.add_zero] at this
            simp only [descStats]
            rw [← this, hdesc_c]
          have hhf_g : hasFileB g = hasFileBL cch := by
            rw [hg]
            have : hasFileBL cch' = (hasFileBL gch || false) := by
              rw [he2]; simp [hasFileBL, hasFileB]
            simp only [Bool.or_false] at this
            simp only [hasFileB]
            rw [← this, hhf_c]
          have hdesc2 : descStatsL (pre ++ post ++ [(g.name, g)]) = descStatsL ch := by
            rw [hdec]
            simp only [descStatsL_append, descStatsL, descStats, hdesc_g, Stats.add_zero]
            cases descStatsL pre <;> cases descStatsL post <;> cases descStatsL cch <;>
              simp [Stats.add] <;> omega
          have hhf2 : hasFileBL (pre ++ post ++ [(g.name, g)]) = hasFileBL ch := by
            rw [hdec]
            simp only [hasFileBL_append, hasFileBL, hasFileB, hhf_g, Bool.or_false]
            cases hasFileBL pre <;> cases hasFileBL post <;> cases hasFileBL cch <;> rfl
          refine ⟨ch', by rw [hgoal, hF2], ?_, ?_, ?_⟩
          · have := hdesc (.folder n (pre ++ post ++ [(g.name, g)]) st s)
            rw [hF2] at this
            simp only [descStats] at this
            rw [this, hdesc2]
          · have := hhf (.folder n (pre ++ post ++ [(g.name, g)]) st s)
            rw [hF2] at this
            simp only [hasFileB] at this
            rw [this, hhf2]
          · intro hok hs hch
            have hgood2 := hgood1 hok hch
            -- well-formedness of the merged list
            have hokg : statsOKb g = true := by
              have : statsOKb (TreeNode.folder cn cch' cst ccs) = true := (by
                subst hdec
                rw [statsOKbL_append] at hgood2
                have := hgood2.1
                simp only [Bool.and_eq_true, statsOKbL] at this
                exact this.2.1 : statsOKb (TreeNode.folder cn cch' cst ccs) = true)
              rw [he2] at this
              simp only [statsOKb, statsOKbL, Bool.and_eq_true] at this
              rw [hg]
              simp only [statsOKb, Bool.and_eq_true]
              exact this.2.1
            have hchg : hasFileB g = true ∧ childrenHaveFilesB g = true := by
              have hc' : childrenHaveFilesBL cch' = true := by
                subst hdec
                rw [childrenHaveFilesBL_append] at hgood2
                have h2 := hgood2.2
                simp only [Bool.and_eq_true, childrenHaveFilesBL] at h2
                simpa [childrenHaveFilesB] using h2.2.1.2
              rw [he2] at hc'
              simp only [childrenHaveFilesBL, childrenHaveFilesB, hasFileB,
                Bool.and_eq_true, Bool.and_true] at hc'
              rw [hg]
              simp only [hasFileB, childrenHaveFilesB]
              exact ⟨hc'.1, hc'.2⟩
            have hgmerged : goodB (.folder n (pre ++ post ++ [(g.name, g)]) st s) = true := by
              simp only [goodB, statsOKb, childrenHaveFilesB, Bool.and_eq_true,
                decide_eq_true_eq]
              refine ⟨⟨by rw [hdesc2, ← hs], ?_⟩, ?_⟩
              · subst hdec
                rw [statsOKbL_append] at hgood2
                rw [statsOKbL_append, statsOKbL_append]
                simp only [Bool.and_eq_true, statsOKbL] at hgood2 ⊢
                exact ⟨⟨hgood2.1.1, hgood2.1.2.2⟩, hokg, trivial⟩
              · subst hdec
                rw [childrenHaveFilesBL_append] at hgood2
                rw [childrenHaveFilesBL_append, childrenHaveFilesBL_append]
                simp only [Bool.and_eq_true, childrenHaveFilesBL] at hgood2 ⊢
                exact ⟨⟨hgood2.2.1, hgood2.2.2.2⟩, ⟨hchg.1, hchg.2⟩, trivial⟩
            have := hgood _ hgmerged
            rw [hF2] at this
            simp only [goodB, statsOKb, childrenHaveFilesB, Bool.and_eq_true] at this
            exact ⟨this.1.2, this.2⟩

/-- The collapse pass, at every recursion budget, preserves a folder's name,
status and own stats, preserves descendant-file stats and file presence, and
preserves the well-formedness invariants. -/
theorem collapseFuel_spec : ∀ fuel : Nat,
    (∀ n ch st s, ∃ ch', collapseFuel fuel (.folder n ch st s) = .folder n ch' st s) ∧
    (∀ t, descStats (collapseFuel fuel t) = descStats t) ∧
    (∀ t, hasFileB (collapseFuel fuel t) = hasFileB t) ∧
    (∀ t, goodB t = true → goodB (collapseFuel fuel t) = true) := by
  intro fuel
  induction fuel with
  | zero => exact ⟨fun n ch st s => ⟨ch, rfl⟩, fun t => rfl, fun t => rfl, fun t h => h⟩
  | succ fuel ih =>
    obtain ⟨ihs, ihd, ihh, ihg⟩ := ih
    refine ⟨?_, ?_, ?_, ?_⟩
    · intro n ch st s
      obtain ⟨ch', hgo, _⟩ :=
        collapseGo_spec (collapseFuel fuel) ihs ihd ihh ihg (ch.map Prod.fst) ch n st s
      exact ⟨ch', hgo⟩
    · intro t
      cases t with
      | file nm pth op di st' dc s' => rfl
      | folder n ch st s =>
        obtain ⟨ch', hgo, hd, _, _⟩ :=
          collapseGo_spec (collapseFuel fuel) ihs ihd ihh ihg (ch.map Prod.fst) ch n st s
        show descStats (collapseGo (collapseFuel fuel) n st s (ch.map Prod.fst) ch) = _
        rw [hgo]
        simpa [descStats] using hd
    · intro t
      cases t with
      | file nm pth op di st' dc s' => rfl
      | folder n ch st s =>
        obtain ⟨ch', hgo, _, hh, _⟩ :=
          collapseGo_spec (collapseFuel fuel) ihs ihd ihh ihg (ch.map Prod.fst) ch n st s
        show hasFileB (collapseGo (collapseFuel fuel) n st s (ch.map Prod.fst) ch) = _
        rw [hgo]
        simpa [hasFileB] using hh
    · intro t hg
      cases t with
      | file nm pth op di st' dc s' => exact hg
      | folder n ch st s =>
        obtain ⟨ch', hgo, hd, _, himp⟩ :=
          collapseGo_spec (collapseFuel fuel) ihs ihd ihh ihg (ch.map Prod.fst) ch n st s
        show goodB (collapseGo (collapseFuel fuel) n st s (ch.map Prod.fst) ch) = true
        rw [hgo]
        simp only [goodB, statsOKb, childrenHaveFilesB, Bool.and_eq_true,
          decide_eq_true_eq] at hg ⊢
        obtain ⟨hok', hch'⟩ := himp hg.1.2 hg.1.1 hg.2
        exact ⟨⟨by rw [hd, ← hg.1.1], hok'⟩, hch'⟩

/-- `insertWalk` on a folder, when it succeeds, returns a folder with the
same name, status and own stats. -/
theorem insertWalk_shape :
    ∀ (parts : List String) (n : String) (ch : List (String × TreeNode))
      (st : Option String) (s : Stats) (f : FileChange) (t' : TreeNode),
    insertWalk (.folder n ch st s) parts f = .ok t' →
    ∃ ch', t' = .folder n ch' st s := by
  intro parts n ch st s f t' h
  match parts with
  | [] => exact ⟨ch, by simpa [insertWalk] using h.symm⟩
  | [p] =>
    refine ⟨setE ch p (mkFileNode p f), ?_⟩
    simpa [insertWalk] using h.symm
  | p :: r :: rs =>
    simp only [insertWalk] at h
    cases hlk : lookupE (updateChildStatus (ensureChild ch p) p f.status) p with
    | none => rw [hlk] at h; exact absurd h (by simp)
    | some c =>
      simp only [hlk] at h
      cases hsub : insertWalk c (r :: rs) f with
      | error e => rw [hsub] at h; exact absurd h (by simp [exceptBind_error])
      | ok sub =>
        rw [hsub] at h
        refine ⟨setE (updateChildStatus (ensureChild ch p) p f.status) p sub, ?_⟩
        simpa [exceptBind_ok] using h.symm

/-- `propagateWalk` on a folder, when it succeeds, returns a folder with the
same name, status and own stats. -/
theorem propagateWalk_shape :
    ∀ (ps : List String) (n : String) (ch : List (String × TreeNode))
      (st : Option String) (s : Stats) (stats : Stats) (t' : TreeNode),
    propagateWalk (.folder n ch st s) ps stats = .ok t' →
    ∃ ch', t' = .folder n ch' st s := by
  intro ps
  induction ps with
  | nil =>
    intro n ch st s stats t' h
    exact ⟨ch, by simpa [propagateWalk] using h.symm⟩
  | cons p rest ih =>
    intro n ch st s stats t' h
    simp only [propagateWalk] at h
    cases hlk : lookupE ch p with
    | none =>
      rw [hlk] at h
      exact ih n ch st s stats t' h
    | some c =>
      simp only [hlk] at h
      cases hsub : propagateWalk (addStats stats c) rest stats with
      | error e => rw [hsub] at h; exact absurd h (by simp [exceptBind_error])
      | ok sub =>
        rw [hsub] at h
        exact ⟨setE ch p sub, by simpa [exceptBind_ok] using h.symm⟩

/-- `addFile` preserves the root's constructor, name and status. -/
theorem addFile_shape {n : String} {ch : List (String × TreeNode)} {st : Option String}
    {s : Stats} {f : FileChange} {t' : TreeNode}
    (h : addFile (.folder n ch st s) f = .ok t') :
    ∃ ch' s', t' = .folder n ch' st s' := by
  unfold addFile at h
  cases hins : insertWalk (.folder n ch st s) (jsSplit f.path '/') f with
  | error e => cases e; rw [hins] at h; exact absurd h (by simp [exceptBind_error])
  | ok t1 =>
    rw [hins] at h
    obtain ⟨ch1, rfl⟩ := insertWalk_shape _ _ _ _ _ _ _ hins
    simp only [exceptBind_ok] at h
    unfold propagateStats at h
    obtain ⟨ch2, rfl⟩ := propagateWalk_shape _ _ _ _ _ _ _ h
    exact ⟨ch2, _, rfl⟩

/-- Folding `addFile` preserves the root's constructor, name and status. -/
theorem foldl_addFile_shape :
    ∀ (files : List FileChange) (n : String) (ch : List (String × TreeNode))
      (st : Option String) (s : Stats) (t' : TreeNode),
    files.foldlM addFile (.folder n ch st s) = .ok t' →
    ∃ ch' s', t' = .folder n ch' st s' := by
  intro files
  induction files with
  | nil =>
    intro n ch st s t' h
    have h' : (Except.ok (TreeNode.folder n ch st s) : Except Unit TreeNode) = .ok t' := h
    exact ⟨ch, s, by simpa using h'.symm⟩
  | cons f fs ih =>
    intro n ch st s t' h
    rw [List.foldlM_cons] at h
    cases hadd : addFile (.folder n ch st s) f with
    | error e => cases e; rw [hadd] at h; exact absurd h (by simp [exceptBind_error])
    | ok r =>
      rw [hadd] at h
      obtain ⟨ch1, s1, rfl⟩ := addFile_shape hadd
      exact ih n ch1 st s1 t' h

/-- C1 (amended): for every nonempty input list whose file paths are pairwise
segment-incomparable (no path is a directory prefix of another — true of any
real change list), every folder of the tree returned by `buildFileTree` has
`stats` equal to the sum of its descendant files' stats, for additions and
deletions alike. -/
theorem C1_folder_stats_invariant (files : List FileChange) (hne : files ≠ [])
    (hpw : List.Pairwise pathsIncomparable files) (t : TreeNode)
    (h : buildFileTree files = .ok t) : statsOKb t = true := by
  clear hne
  obtain ⟨ch', s', hfold, hok', hs', hch', _⟩ :=
    foldl_addFile_spec files "/" [] none ⟨0, 0⟩ rfl rfl rfl
      (by intro q hq; simp [filePathsL] at hq) hpw
  unfold buildFileTree at h
  rw [hfold] at h
  have ht : t = collapseSingleChildFolders (.folder "/" ch' none s') := by
    simpa using h.symm
  have hgood : goodB (.folder "/" ch' none s') = true := by
    simp [goodB, statsOKb, childrenHaveFilesB, hok', hch', hs']
  have hst := (collapseFuel_spec (nodeCount (.folder "/" ch' none s'))).2.2.2 _ hgood
  rw [ht]
  unfold collapseSingleChildFolders
  simp only [goodB, Bool.and_eq_true] at hst
  exact hst.1

/-- C1 witness: the invariant theorem applied to a concrete one-file list. -/
theorem C1_witness :
    buildFileTree [⟨"a/b.txt", "a/b.txt", 0, "added", some "+x"⟩] =
      .ok (.folder "/"
        [("a", .folder "a"
          [("b.txt", .file "b.txt" "a/b.txt" "a/b.txt" 0 "added" (some "+x") ⟨1, 0⟩)]
          (some "added") ⟨1, 0⟩)]
        none ⟨1, 0⟩) ∧
    statsOKb (.folder "/"
        [("a", .folder "a"
          [("b.txt", .file "b.txt" "a/b.txt" "a/b.txt" 0 "added" (some "+x") ⟨1, 0⟩)]
          (some "added") ⟨1, 0⟩)]
        none ⟨1, 0⟩) = true :=
  ⟨rfl, C1_folder_stats_invariant [⟨"a/b.txt", "a/b.txt", 0, "added", some "+x"⟩]
    (by simp) (List.pairwise_singleton _ _) _ rfl⟩

/-- C7 (amended): `buildFileTree` throws no exception whenever no file path
is a directory prefix of another file path (segment-wise), which holds for
real change lists; `parseFileStats`, `renderDiff` and
`extractDiffFromGitLabHTML` are total functions of their inputs and never
throw. -/
theorem C7_no_throw (files : List FileChange)
    (hpw : List.Pairwise pathsIncomparable files) :
    ∃ t, buildFileTree files = .ok t := by
  obtain ⟨ch', s', hfold, _, _, _, _⟩ :=
    foldl_addFile_spec files "/" [] none ⟨0, 0⟩ rfl rfl rfl
      (by intro q hq; simp [filePathsL] at hq) hpw
  refine ⟨collapseSingleChildFolders (.folder "/" ch' none s'), ?_⟩
  unfold buildFileTree
  rw [hfold]
  rfl

/-- C7 witness: the no-throw theorem applied to a concrete two-file list. -/
theorem C7_witness :
    (buildFileTree [⟨"x/y.txt", "x/y.txt", 0, "added", some "+a"⟩,
                    ⟨"z.txt", "z.txt", 1, "deleted", some "-a"⟩]).map (fun _ => true) =
      .ok true := by
  obtain ⟨t, ht⟩ := C7_no_throw
    [⟨"x/y.txt", "x/y.txt", 0, "added", some "+a"⟩,
     ⟨"z.txt", "z.txt", 1, "deleted", some "-a"⟩]
    (by
      refine List.Pairwise.cons ?_ (List.pairwise_singleton _ _)
      intro g hg
      rw [List.mem_singleton] at hg
      subst hg
      exact ⟨by decide, by decide⟩)
  rw [ht]
  rfl

/-- C10: for every input list, the node `buildFileTree` returns is the root
folder named `"/"`: the collapse pass merges only a child folder with its
single grandchild folder and never replaces or renames the root itself. -/
theorem C10_root_preserved (files : List FileChange) (t : TreeNode)
    (h : buildFileTree files = .ok t) : t.name = "/" ∧ t.isFolder = true := by
  unfold buildFileTree at h
  cases hfold : files.foldlM addFile (.folder "/" [] none ⟨0, 0⟩) with
  | error e => cases e; rw [hfold] at h; exact absurd h (by simp [exceptBind_error])
  | ok root =>
    rw [hfold] at h
    obtain ⟨ch', s', rfl⟩ := foldl_addFile_shape files "/" [] none ⟨0, 0⟩ root hfold
    have ht : t = collapseSingleChildFolders (.folder "/" ch' none s') := by
      simpa using h.symm
    obtain ⟨ch'', hc⟩ :=
      (collapseFuel_spec (nodeCount (.folder "/" ch' none s'))).1 "/" ch' none s'
    rw [ht]
    unfold collapseSingleChildFolders
    rw [hc]
    exact ⟨rfl, rfl⟩

/-- C10 witness: the root-preservation theorem applied to the empty list. -/
theorem C10_witness :
    (TreeNode.folder "/" [] none ⟨0, 0⟩).name = "/" ∧
    (TreeNode.folder "/" [] none ⟨0, 0⟩).isFolder = true :=
  C10_root_preserved [] _ rfl

theorem takeWhile_dropWhile_app {p : String → Bool} :
    ∀ (xs ys : List String), (∀ x ∈ xs, p x = true) →
    (∀ y, ys.head? = some y → p y = false) →
    (xs ++ ys).takeWhile p = xs ∧ (xs ++ ys).dropWhile p = ys := by
  intro xs
  induction xs with
  | nil =>
    intro ys _ hy
    cases ys with
    | nil => exact ⟨rfl, rfl⟩
    | cons y ytl =>
      have hpy := hy y rfl
      simp [List.takeWhile_cons, List.dropWhile_cons, hpy]
  | cons x xtl ih =>
    intro ys hx hy
    have hpx : p x = true := hx x (List.mem_cons_self _ _)
    have h := ih ys (fun a ha => hx a (List.mem_cons_of_mem _ ha)) hy
    simp [List.takeWhile_cons, List.dropWhile_cons, hpx, h.1, h.2]

theorem isRemLine_facts {l : String} (h : isRemLine l = true) :
    jsStartsWith l "@@" = false ∧ jsStartsWith l "+++" = false ∧
    jsStartsWith l "---" = false ∧ jsStartsWith l "\\" = false ∧
    jsStartsWith l "-" = true := by
  obtain ⟨cs, hcs⟩ := isRemLine_head h
  have h3 : jsStartsWith l "---" = false := by
    simp only [isRemLine, Bool.and_eq_true, Bool.not_eq_true'] at h
    exact h.2
  refine ⟨?_, ?_, h3, ?_, ?_⟩ <;> simp [jsStartsWith, hcs, List.isPrefixOf]

theorem isAddLine_facts {l : String} (h : isAddLine l = true) :
    jsStartsWith l "@@" = false ∧ jsStartsWith l "+++" = false ∧
    jsStartsWith l "---" = false ∧ jsStartsWith l "\\" = false ∧
    jsStartsWith l "+" = true ∧ jsStartsWith l "-" = false := by
  obtain ⟨cs, hcs⟩ := isAddLine_head h
  have h2 : jsStartsWith l "+++" = false := by
    simp only [isAddLine, Bool.and_eq_true, Bool.not_eq_true'] at h
    exact h.2
  refine ⟨?_, h2, ?_, ?_, ?_, ?_⟩ <;> simp [jsStartsWith, hcs, List.isPrefixOf]

/-- Unfolding of one `renderDiff` loop iteration at a removed line: gather
the maximal removed run and the following added run; equal lengths render as
a paired modification and scanning resumes after both runs, otherwise only
the current line is rendered plain and scanning resumes at the next line. -/
theorem renderLoop_rem_step (h : Hljs) (w : WordDiff) (ext fn : String) (fuel : Nat)
    {line : String} (rest' : List String) (old new sect : Nat)
    (hl : isRemLine line = true) :
    renderLoop h w ext fn (fuel + 1) (line :: rest') old new sect =
      (if ((line :: rest').takeWhile isRemLine).length =
          (((line :: rest').dropWhile isRemLine).takeWhile isAddLine).length then
        pairedRows h w ext fn ((line :: rest').takeWhile isRemLine)
            (((line :: rest').dropWhile isRemLine).takeWhile isAddLine) old new ++
          renderLoop h w ext fn fuel
            (((line :: rest').dropWhile isRemLine).dropWhile isAddLine)
            (old + ((line :: rest').takeWhile isRemLine).length)
            (new + (((line :: rest').dropWhile isRemLine).takeWhile isAddLine).length) sect
      else
        (renderNormalLine h ext fn line old new).toList ++
          renderLoop h w ext fn fuel rest' (old + 1) new sect) := by
  obtain ⟨hf1, hf2, hf3, hf4, hf5⟩ := isRemLine_facts hl
  simp only [renderLoop, hf1, hf2, hf3, hf4, hf5, Bool.or_false, Bool.false_eq_true,
    if_false, if_true]

/-- C2 (amended): the scanner pairs a removed run with the following added
run exactly when the two maximal runs at the current scan position have equal
lengths (first conjunct); on a length mismatch only the first removed line is
rendered plain, with no word spans, and scanning resumes at the following
line (second conjunct) — so 1 removed vs 2 added renders every line plain,
while a longer removed run may still pair its suffix. -/
theorem C2_run_pairing (h : Hljs) (w : WordDiff) (ext fn : String) :
    (∀ (fuel old new sect : Nat) (removed added rest : List String),
      removed ≠ [] → (∀ l ∈ removed, isRemLine l = true) →
      added ≠ [] → (∀ l ∈ added, isAddLine l = true) →
      removed.length = added.length →
      (∀ l, rest.head? = some l → isAddLine l = false) →
      renderLoop h w ext fn (fuel + 1) (removed ++ (added ++ rest)) old new sect =
        pairedRows h w ext fn removed added old new ++
          renderLoop h w ext fn fuel rest (old + removed.length) (new + added.length) sect) ∧
    (∀ (fuel old new sect : Nat) (r : String) (rtl added rest : List String),
      isRemLine r = true → (∀ l ∈ rtl, isRemLine l = true) →
      added ≠ [] → (∀ l ∈ added, isAddLine l = true) →
      (r :: rtl).length ≠ added.length →
      (∀ l, rest.head? = some l → isAddLine l = false) →
      renderLoop h w ext fn (fuel + 1) ((r :: rtl) ++ (added ++ rest)) old new sect =
        (renderNormalLine h ext fn r old new).toList ++
          renderLoop h w ext fn fuel (rtl ++ (added ++ rest)) (old + 1) new sect) := by
  have key : ∀ (removed added rest : List String),
      removed ≠ [] → (∀ l ∈ removed, isRemLine l = true) →
      added ≠ [] → (∀ l ∈ added, isAddLine l = true) →
      (∀ l, rest.head? = some l → isAddLine l = false) →
      (removed ++ (added ++ rest)).takeWhile isRemLine = removed ∧
      (removed ++ (added ++ rest)).dropWhile isRemLine = added ++ rest ∧
      (added ++ rest).takeWhile isAddLine = added ∧
      (added ++ rest).dropWhile isAddLine = rest := by
    intro removed added rest hrne hrem hane hadd hrest
    obtain ⟨a, atl, rfl⟩ : ∃ a atl, added = a :: atl := by
      cases added with
      | nil => exact absurd rfl hane
      | cons a atl => exact ⟨a, atl, rfl⟩
    have h1 := takeWhile_dropWhile_app removed ((a :: atl) ++ rest) hrem
      (by
        intro y hy
        rw [List.cons_append] at hy
        simp only [List.head?_cons, Option.some.injEq] at hy
        subst hy
        exact isAddLine_not_isRemLine (hadd a (List.mem_cons_self _ _)))
    have h2 := takeWhile_dropWhile_app (a :: atl) rest hadd hrest
    exact ⟨h1.1, h1.2, h2.1, h2.2⟩
  constructor
  · intro fuel old new sect removed added rest hrne hrem hane hadd hlen hrest
    obtain ⟨r, rtl, rfl⟩ : ∃ r rtl, removed = r :: rtl := by
      cases removed with
      | nil => exact absurd rfl hrne
      | cons r rtl => exact ⟨r, rtl, rfl⟩
    obtain ⟨hk1, hk2, hk3, hk4⟩ := key _ _ _ hrne hrem hane hadd hrest
    rw [List.cons_append]
    rw [renderLoop_rem_step h w ext fn fuel _ old new sect
      (hrem r (List.mem_cons_self _ _))]
    rw [← List.cons_append, hk1, hk2, hk3, hk4, if_pos hlen]
  · intro fuel old new sect r rtl added rest hr hrtl hane hadd hlen hrest
    have hrem : ∀ l ∈ (r :: rtl), isRemLine l = true := by
      intro l hl
      rcases List.mem_cons.mp hl with rfl | hl
      · exact hr
      · exact hrtl l hl
    obtain ⟨hk1, hk2, hk3, hk4⟩ := key (r :: rtl) _ _ (by simp) hrem hane hadd hrest
    rw [List.cons_append]
    rw [renderLoop_rem_step h w ext fn fuel _ old new sect hr]
    rw [← List.cons_append, hk1, hk2, hk3, if_neg hlen]

/-- C2 witness: the pairing theorem applied at concrete runs: an equal 1/1
run pairs, and a 1-removed/2-added mismatch renders the removed line plain. -/
theorem C2_witness :
    renderLoop hljsNone wholeLineDiff "txt" "f.txt" (0 + 1) (["-a"] ++ (["+b"] ++ [])) 5 7 2 =
      pairedRows hljsNone wholeLineDiff "txt" "f.txt" ["-a"] ["+b"] 5 7 ++
        renderLoop hljsNone wholeLineDiff "txt" "f.txt" 0 [] (5 + ["-a"].length)
          (7 + ["+b"].length) 2 ∧
    renderLoop hljsNone wholeLineDiff "txt" "f.txt" (2 + 1)
        (("-a" :: []) ++ (["+b", "+c"] ++ [])) 5 7 2 =
      (renderNormalLine hljsNone "txt" "f.txt" "-a" 5 7).toList ++
        renderLoop hljsNone wholeLineDiff "txt" "f.txt" 2 ([] ++ (["+b", "+c"] ++ [])) (5 + 1) 7 2 :=
  ⟨(C2_run_pairing hljsNone wholeLineDiff "txt" "f.txt").1 0 5 7 2 ["-a"] ["+b"] []
      (by simp) (by decide) (by simp) (by decide) (by decide) (by simp),
   (C2_run_pairing hljsNone wholeLineDiff "txt" "f.txt").2 2 5 7 2 "-a" [] ["+b", "+c"] []
      (by decide) (by simp) (by simp) (by decide) (by decide) (by simp)⟩

end CommitTree
